import Mathlib

/-!
The page-table simulator `ptsim`.

A shallow embedding of `src/ptsim.c`.

* The simulated RAM `unsigned char mem[MEM_SIZE]` is a function from indices to
  byte values.  Indices are integers, because the program indexes `mem` with
  the result of `get_physical_address`, which may be `-1`.  The cells with an
  index in `[0, MEM_SIZE)` are the array; a cell outside that range stands for
  whatever an out-of-bounds access of the C program touches, so that such an
  access stays visible in the model instead of being dropped.
* Where the claim is about what a function returns on an arbitrary memory
  state, the array bounds are made explicit: `read` is the access `mem[i]` that
  is undefined outside `[0, MEM_SIZE)`, and `get_physical_address_checked` is
  `get_physical_address` over `read`.
* An assignment to a cell converts the assigned `int` to `unsigned char`,
  that is, reduces it modulo 256.
* The `int` arguments `proc_num`, `page_count`, `virtual_address`, `page` and
  `offset` are natural numbers: the development is about non-negative
  arguments, and every value computed from them stays far below `2^31`.
* What a function prints is returned as a list of `Output` lines.
* Every loop of the program is a bounded `for` loop; it is a structural
  recursion on the number of iterations still to run.
-/

namespace Ptsim

/-! ## Constants -/

def MEM_SIZE : Nat := 16384
def PAGE_SIZE : Nat := 256
def PAGE_COUNT : Nat := 64
def PAGE_SHIFT : Nat := 8
def PTP_OFFSET : Nat := 64

/-! ## Memory and output -/

/-- Simulated RAM, `unsigned char mem[MEM_SIZE]`, with integer indices. -/
abbrev Mem := Int → Nat

/-- The assignment `mem[i] = v`, with `v` an `int` converted to a byte. -/
def write (mem : Mem) (i : Int) (v : Int) : Mem :=
  fun j => if j = i then (v % 256).toNat else mem j

/-- The lines the program prints. -/
inductive Output where
  /-- Line `OOM: proc %d: page table`. -/
  | oom_page_table (proc : Nat)
  /-- Line `OOM: proc %d: data page`. -/
  | oom_data_page (proc : Nat)
  /-- Line `PAGE FAULT: proc %d, vaddr %d`. -/
  | page_fault (proc vaddr : Nat)
  /-- Line `Store proc %d: %d => %d, value=%d`. -/
  | store_line (proc vaddr : Nat) (addr : Int) (val : Int)
  /-- Line `Load proc %d: %d => %d, value=%d`. -/
  | load_line (proc vaddr : Nat) (addr : Int) (val : Int)
  deriving DecidableEq, Repr

/-! ## The program -/

/-- `get_address`: `(page << PAGE_SHIFT) | offset`. -/
def get_address (page offset : Nat) : Nat :=
  (page <<< PAGE_SHIFT) ||| offset

/-- The library call `memset(mem, c, n)`: the first `n` cells of the array
are set to the byte `c`. -/
def memset (mem : Mem) (c : Int) (n : Nat) : Mem :=
  fun j => if 0 ≤ j ∧ j < (n : Int) then (c % 256).toNat else mem j

/-- `initialize_mem`: `memset(mem, 0, MEM_SIZE)`, then
`mem[get_address(0, 0)] = 1`. -/
def initialize_mem (mem : Mem) : Mem :=
  let zpfree_addr := get_address 0 0
  write (memset mem 0 MEM_SIZE) zpfree_addr 1

/-- `get_page_table`: the byte `mem[get_address(0, PTP_OFFSET + proc_num)]`. -/
def get_page_table (mem : Mem) (proc_num : Nat) : Nat :=
  mem (get_address 0 (PTP_OFFSET + proc_num))

/-- `get_physical_address`: the index of the page-table entry it reads. -/
def table_entry_index (mem : Mem) (process_num virtual_address : Nat) : Nat :=
  get_address (get_page_table mem process_num) (virtual_address >>> 8)

/-- `get_physical_address`. -/
def get_physical_address (mem : Mem) (process_num virtual_address : Nat) : Int :=
  let virtual_page := virtual_address >>> 8
  let offset := virtual_address &&& 255
  let process_page_table_pointer := get_page_table mem process_num
  let phys_page := get_address process_page_table_pointer virtual_page
  if mem phys_page = 0 then -1
  else (((mem phys_page <<< 8) ||| offset : Nat) : Int)

/-- The array access `mem[i]` with the bounds of `unsigned char mem[MEM_SIZE]`:
`none` for an index outside the array, where the access of the C program is
undefined. -/
def read (mem : Mem) (i : Int) : Option Nat :=
  if 0 ≤ i ∧ i < (MEM_SIZE : Int) then some (mem i) else none

/-- `get_physical_address` with its array accesses bounds-checked: the result
is `none` when the function indexes outside the array. -/
def get_physical_address_checked (mem : Mem) (process_num virtual_address : Nat) :
    Option Int :=
  let virtual_page := virtual_address >>> 8
  let offset := virtual_address &&& 255
  (read mem (get_address 0 (PTP_OFFSET + process_num))).bind fun process_page_table_pointer =>
    let phys_page := get_address process_page_table_pointer virtual_page
    (read mem phys_page).bind fun entry =>
      if entry = 0 then some (-1) else some (((entry <<< 8) ||| offset : Nat) : Int)

/-- `new_process`, first loop, started at slot `ft_page_number` with `k`
iterations to run: claims the first free slot and records it at
`process_page_table_pointer`.  The flag is `found_empty_page`. -/
def table_loop (process_page_table_pointer : Nat) :
    Nat → Nat → Mem → Mem × Bool
  | 0, _, mem => (mem, false)
  | k + 1, ft_page_number, mem =>
    let addr := get_address 0 ft_page_number
    if mem addr = 0 then
      (write (write mem addr 1) process_page_table_pointer ft_page_number, true)
    else table_loop process_page_table_pointer k (ft_page_number + 1) mem

/-- `new_process`, inner loop of the data-page loop, started at slot
`ft_page_number` with `k` iterations to run.  The flag is
`found_empty_process_page`. -/
def data_scan (process_page_table_pointer data_page : Nat) :
    Nat → Nat → Mem → Mem × Bool
  | 0, _, mem => (mem, false)
  | k + 1, ft_page_number, mem =>
    let addr := get_address 0 ft_page_number
    if mem addr = 0 then
      let mem1 := write mem addr 1
      let process_page_table_address := mem1 process_page_table_pointer * PAGE_SIZE
      (write mem1 ((process_page_table_address + data_page : Nat) : Int) ft_page_number, true)
    else data_scan process_page_table_pointer data_page k (ft_page_number + 1) mem

/-- `new_process`, the data-page loop, at `data_page` with `k` iterations to
run. -/
def data_loop (proc_num process_page_table_pointer : Nat) :
    Nat → Nat → Mem → Mem × List Output
  | 0, _, mem => (mem, [])
  | k + 1, data_page, mem =>
    match data_scan process_page_table_pointer data_page 63 1 mem with
    | (mem1, true) => data_loop proc_num process_page_table_pointer k (data_page + 1) mem1
    | (mem1, false) => (mem1, [Output.oom_data_page proc_num])

/-- `new_process`. -/
def new_process (mem : Mem) (proc_num page_count : Nat) : Mem × List Output :=
  let process_page_table_pointer := get_address 0 (PTP_OFFSET + proc_num)
  match table_loop process_page_table_pointer 63 1 mem with
  | (mem1, false) => (mem1, [Output.oom_page_table proc_num])
  | (mem1, true) => data_loop proc_num process_page_table_pointer page_count 0 mem1

/-- `free_process`, the loop `for (j = ...; j < PAGE_SIZE; j++) mem[page_address + j] = 0`
with `k` iterations to run. -/
def zero_loop (page_address : Nat) : Nat → Nat → Mem → Mem
  | 0, _, mem => mem
  | k + 1, j, mem => zero_loop page_address k (j + 1) (write mem ((page_address + j : Nat) : Int) 0)

/-- `free_process`, the loop over the table slots, at slot `i` with `k`
iterations to run. -/
def free_loop (process_page_table_address : Nat) : Nat → Nat → Mem → Mem
  | 0, _, mem => mem
  | k + 1, i, mem =>
    let page_number := mem ((process_page_table_address + i : Nat) : Int)
    if page_number ≠ 0 then
      let page_address := page_number * PAGE_SIZE
      free_loop process_page_table_address k (i + 1)
        (write (zero_loop page_address PAGE_SIZE 0 mem) page_number 0)
    else free_loop process_page_table_address k (i + 1) mem

/-- `free_process`. -/
def free_process (mem : Mem) (proc_num : Nat) : Mem :=
  let process_page_table_pointer := get_page_table mem proc_num
  let process_page_table_address := mem process_page_table_pointer * PAGE_SIZE
  write (free_loop process_page_table_address PAGE_SIZE 0 mem) process_page_table_pointer 0

/-- `store_value_at_vir_addr`. -/
def store_value_at_vir_addr (mem : Mem) (proc_num vaddr : Nat) (val : Int) :
    Mem × List Output :=
  let addr := get_physical_address mem proc_num vaddr
  let fault := if addr = -1 then [Output.page_fault proc_num vaddr] else []
  (write mem addr val, fault ++ [Output.store_line proc_num vaddr addr val])

/-- `get_value_at_vir_addr`. -/
def get_value_at_vir_addr (mem : Mem) (proc_num vaddr : Nat) : List Output :=
  let addr := get_physical_address mem proc_num vaddr
  let fault := if addr = -1 then [Output.page_fault proc_num vaddr] else []
  let val := mem addr
  fault ++ [Output.load_line proc_num vaddr addr val]

/-! ## Specification-level definitions -/

/-- The free slots among the bitmap slots `ft, ft+1, ..., ft+k-1`, in ascending
order: the slots the scans of `new_process` would stop at. -/
def free_from (mem : Mem) : Nat → Nat → List Nat
  | 0, _ => []
  | k + 1, ft =>
    if mem (ft : Int) = 0 then ft :: free_from mem k (ft + 1) else free_from mem k (ft + 1)

/-- The free slots among the bitmap slots 1..63, in ascending order. -/
def free_slots (mem : Mem) : List Nat := free_from mem 63 1

/-- What the data-page loop of `new_process` does with the free slots it
claims, in order: slot `f` is marked, and `f` is written at table slot
`data_page` of table page `T`. -/
def fill (T : Nat) : Nat → List Nat → Mem → Mem
  | _, [], mem => mem
  | data_page, f :: r, mem =>
    fill T (data_page + 1) r (write (write mem f 1) ((T * 256 + data_page : Nat) : Int) f)

/-- The number of pages claimed for a record of created processes `(id, data
page count)`: one table page and the data pages of each. -/
def pages_used : List (Nat × Nat) → Nat
  | [] => 0
  | e :: L => (e.2 + 1) + pages_used L

/-- The table page of process `p` according to a record of created processes,
most recent first, when pages are handed out in ascending order from page 1. -/
def table_of : List (Nat × Nat) → Nat → Nat
  | [], _ => 0
  | e :: L, p => if p = e.1 then 1 + pages_used L else table_of L p

/-- States reached from `initialize_mem` by `new_process` calls on pairwise
distinct process ids in [0,64), none of which prints an out-of-memory line.
The list records the calls `(id, page_count)`, most recent first. -/
inductive Created : Mem → List (Nat × Nat) → Prop
  | init (mem0 : Mem) : Created (initialize_mem mem0) []
  | create (mem : Mem) (L : List (Nat × Nat)) (p n : Nat) :
      Created mem L → p < 64 → (∀ e ∈ L, e.1 ≠ p) → (new_process mem p n).2 = [] →
      Created (new_process mem p n).1 ((p, n) :: L)

/-- States reached as in `Created`, interleaved with stores by created
processes to virtual addresses inside their allocated data pages. -/
inductive CreatedStored : Mem → List (Nat × Nat) → Prop
  | init (mem0 : Mem) : CreatedStored (initialize_mem mem0) []
  | create (mem : Mem) (L : List (Nat × Nat)) (p n : Nat) :
      CreatedStored mem L → p < 64 → (∀ e ∈ L, e.1 ≠ p) → (new_process mem p n).2 = [] →
      CreatedStored (new_process mem p n).1 ((p, n) :: L)
  | store (mem : Mem) (L : List (Nat × Nat)) (p n v : Nat) (x : Int) :
      CreatedStored mem L → (p, n) ∈ L → v < n * 256 →
      CreatedStored (store_value_at_vir_addr mem p v x).1 L

/-- The memory layout of the states of `CreatedStored`: pages are handed out in
ascending order, so the pages `0..pages_used L` are marked and the rest is
free and zero; each process has its directory entry, its table page with one
entry per data page, and its data pages right after its table page. -/
structure Layout (mem : Mem) (L : List (Nat × Nat)) : Prop where
  distinct : L.Pairwise (fun a b => a.1 ≠ b.1)
  pid_lt : ∀ e ∈ L, e.1 < 64
  room : pages_used L ≤ 63
  bitmap_used : ∀ i : Nat, i ≤ pages_used L → mem (i : Int) = 1
  bitmap_free : ∀ i : Nat, pages_used L < i → i < 64 → mem (i : Int) = 0
  dir : ∀ e ∈ L, mem ((64 + e.1 : Nat) : Int) = table_of L e.1
  dir_none : ∀ q : Nat, q < 64 → (∀ e ∈ L, e.1 ≠ q) → mem ((64 + q : Nat) : Int) = 0
  table_lo : ∀ e ∈ L, ∀ i : Nat, i < e.2 →
    mem ((table_of L e.1 * 256 + i : Nat) : Int) = table_of L e.1 + 1 + i
  table_hi : ∀ e ∈ L, ∀ i : Nat, e.2 ≤ i → i < 256 →
    mem ((table_of L e.1 * 256 + i : Nat) : Int) = 0
  free_zero : ∀ x : Nat, (pages_used L + 1) * 256 ≤ x → x < 16384 → mem (x : Int) = 0

/-- The number of bitmap slots 0..63 that are non-zero. -/
def allocated_pages (mem : Mem) : Nat :=
  ((List.range 64).filter (fun i : Nat => mem (i : Int) ≠ 0)).length

/-- Every byte of the array is less than `PAGE_COUNT`. -/
def Bounded (mem : Mem) : Prop := ∀ y : Nat, y < 16384 → mem (y : Int) < 64

/-- States reached from `initialize_mem` by any sequence of `new_process` and
`free_process` calls with process ids in [0,64). -/
inductive RunAny : Mem → Prop
  | init (mem0 : Mem) : RunAny (initialize_mem mem0)
  | create (mem : Mem) (p n : Nat) : RunAny mem → p < 64 → RunAny (new_process mem p n).1
  | free (mem : Mem) (p : Nat) : RunAny mem → p < 64 → RunAny (free_process mem p)

/-- States reached from `initialize_mem` by any sequence of `new_process` calls
on ids in [0,64) and `free_process` calls on ids that have been created.  The
list holds the ids that have been created: those of the `new_process` calls that
did not stop with the out-of-memory line for the page table. -/
inductive Run : Mem → List Nat → Prop
  | init (mem0 : Mem) : Run (initialize_mem mem0) []
  | create (mem : Mem) (C : List Nat) (p n : Nat) : Run mem C → p < 64 →
      Run (new_process mem p n).1
        (if (new_process mem p n).2 = [Output.oom_page_table p] then C else p :: C)
  | free (mem : Mem) (C : List Nat) (p : Nat) : Run mem C → p ∈ C → Run (free_process mem p) C

/-! ## Basic facts -/

theorem get_address_zero (offset : Nat) : get_address 0 offset = offset := by
  simp [get_address]

theorem get_address_eq (page offset : Nat) (h : offset < 256) :
    get_address page offset = page * 256 + offset := by
  unfold get_address PAGE_SHIFT
  rw [Nat.shiftLeft_eq, Nat.mul_comm]
  exact (Nat.mul_add_lt_is_or (i := 8) (by simpa using h) page).symm

theorem write_same (mem : Mem) (i v : Int) : write mem i v i = (v % 256).toNat := by
  simp [write]

theorem write_other (mem : Mem) (i v j : Int) (h : j ≠ i) : write mem i v j = mem j := by
  simp [write, h]

theorem get_physical_address_eq (mem : Mem) (p v : Nat) (hv : v < 65536) :
    get_physical_address mem p v =
      if mem ((mem ((64 + p : Nat) : Int) * 256 + v / 256 : Nat) : Int) = 0 then -1
      else ((mem ((mem ((64 + p : Nat) : Int) * 256 + v / 256 : Nat) : Int) * 256 + v % 256 : Nat) : Int) := by
  have h1 : v >>> 8 = v / 256 := by rw [Nat.shiftRight_eq_div_pow]
  have h2 : v &&& 255 = v % 256 := Nat.and_pow_two_sub_one_eq_mod v 8
  have h3 : v / 256 < 256 := by omega
  have h4 : v % 256 < 256 := by omega
  unfold get_physical_address get_page_table
  simp only [h1, h2, get_address_zero, PTP_OFFSET, get_address_eq _ _ h3]
  have h5 : ∀ e : Nat, e <<< 8 ||| (v % 256) = e * 256 + v % 256 := fun e => by
    have := get_address_eq e (v % 256) h4
    simpa [get_address, PAGE_SHIFT] using this
  simp only [h5]

/-! ## The scans of `new_process` -/

theorem mem_free_from (mem : Mem) (k ft i : Nat) :
    i ∈ free_from mem k ft ↔ ft ≤ i ∧ i < ft + k ∧ mem (i : Int) = 0 := by
  induction k generalizing ft with
  | zero => simp [free_from]; omega
  | succ k ih =>
    unfold free_from
    by_cases h : mem (ft : Int) = 0
    · simp only [h, if_true, List.mem_cons, ih]
      constructor
      · rintro (rfl | ⟨h1, h2, h3⟩)
        · exact ⟨le_refl _, by omega, h⟩
        · exact ⟨by omega, by omega, h3⟩
      · rintro ⟨h1, h2, h3⟩
        by_cases e : i = ft
        · exact Or.inl e
        · exact Or.inr ⟨by omega, by omega, h3⟩
    · simp only [h, if_false, ih]
      constructor
      · rintro ⟨h1, h2, h3⟩
        exact ⟨by omega, by omega, h3⟩
      · rintro ⟨h1, h2, h3⟩
        have e : i ≠ ft := fun e => h (e ▸ h3)
        exact ⟨by omega, by omega, h3⟩

theorem free_from_sorted (mem : Mem) (k ft : Nat) :
    (free_from mem k ft).Pairwise (· < ·) := by
  induction k generalizing ft with
  | zero => simp [free_from]
  | succ k ih =>
    unfold free_from
    split
    · refine List.pairwise_cons.2 ⟨fun a ha => ?_, ih _⟩
      have := (mem_free_from mem k (ft + 1) a).1 ha
      omega
    · exact ih _

theorem free_from_congr (mem1 mem2 : Mem) (k ft : Nat)
    (h : ∀ i : Nat, ft ≤ i → i < ft + k → mem2 (i : Int) = mem1 (i : Int)) :
    free_from mem2 k ft = free_from mem1 k ft := by
  induction k generalizing ft with
  | zero => simp [free_from]
  | succ k ih =>
    unfold free_from
    rw [h ft (le_refl _) (by omega), ih (ft + 1) (fun i h1 h2 => h i (by omega) (by omega))]

theorem free_from_claim (mem : Mem) (k ft f : Nat) (r : List Nat)
    (h : free_from mem k ft = f :: r) : free_from (write mem f 1) k ft = r := by
  induction k generalizing ft with
  | zero => simp [free_from] at h
  | succ k ih =>
    unfold free_from at h ⊢
    by_cases h0 : mem (ft : Int) = 0
    · simp only [h0, if_true, List.cons.injEq] at h
      obtain ⟨rfl, rfl⟩ := h
      have : write mem (ft : Int) 1 (ft : Int) ≠ 0 := by simp [write]
      simp only [this, if_false]
      exact free_from_congr _ _ _ _ (fun i h1 h2 => write_other _ _ _ _ (by omega))
    · simp only [h0, if_false] at h
      have hf := (mem_free_from mem k (ft + 1) f).1 (by rw [h]; exact List.mem_cons_self _ _)
      have : write mem (f : Int) 1 (ft : Int) ≠ 0 := by
        rw [write_other _ _ _ _ (by omega)]; exact h0
      simp only [this, if_false]
      exact ih _ h

theorem table_loop_nil (ptp : Nat) (mem : Mem) (k ft : Nat) (h : free_from mem k ft = []) :
    table_loop ptp k ft mem = (mem, false) := by
  induction k generalizing ft with
  | zero => rfl
  | succ k ih =>
    unfold free_from at h
    unfold table_loop
    by_cases h0 : mem (ft : Int) = 0
    · simp [h0] at h
    · simp only [h0, if_false] at h
      simp only [get_address_zero, h0, if_false]
      exact ih _ h

theorem table_loop_cons (ptp : Nat) (mem : Mem) (k ft f : Nat) (r : List Nat)
    (h : free_from mem k ft = f :: r) :
    table_loop ptp k ft mem = (write (write mem f 1) ptp f, true) := by
  induction k generalizing ft with
  | zero => simp [free_from] at h
  | succ k ih =>
    unfold free_from at h
    unfold table_loop
    by_cases h0 : mem (ft : Int) = 0
    · simp only [h0, if_true, List.cons.injEq] at h
      obtain ⟨rfl, -⟩ := h
      simp only [get_address_zero, h0, if_true]
    · simp only [h0, if_false] at h
      simp only [get_address_zero, h0, if_false]
      exact ih _ h

theorem data_scan_nil (ptp d : Nat) (mem : Mem) (k ft : Nat) (h : free_from mem k ft = []) :
    data_scan ptp d k ft mem = (mem, false) := by
  induction k generalizing ft with
  | zero => rfl
  | succ k ih =>
    unfold free_from at h
    unfold data_scan
    by_cases h0 : mem (ft : Int) = 0
    · simp [h0] at h
    · simp only [h0, if_false] at h
      simp only [get_address_zero, h0, if_false]
      exact ih _ h

theorem data_scan_cons (ptp d : Nat) (mem : Mem) (k ft f : Nat) (r : List Nat)
    (h : free_from mem k ft = f :: r) :
    data_scan ptp d k ft mem =
      (write (write mem f 1) ((write mem f 1 ptp * PAGE_SIZE + d : Nat) : Int) f, true) := by
  induction k generalizing ft with
  | zero => simp [free_from] at h
  | succ k ih =>
    unfold free_from at h
    unfold data_scan
    by_cases h0 : mem (ft : Int) = 0
    · simp only [h0, if_true, List.cons.injEq] at h
      obtain ⟨rfl, -⟩ := h
      simp only [get_address_zero, h0, if_true]
    · simp only [h0, if_false] at h
      simp only [get_address_zero, h0, if_false]
      exact ih _ h

theorem data_loop_eq (proc ptp T : Nat) (k d : Nat) (mem : Mem) (hptp1 : 64 ≤ ptp)
    (hptp2 : ptp < 256) (hT : mem (ptp : Int) = T) (hT1 : 1 ≤ T) :
    data_loop proc ptp k d mem =
      (fill T d ((free_slots mem).take k) mem,
        if k ≤ (free_slots mem).length then [] else [Output.oom_data_page proc]) := by
  induction k generalizing d mem with
  | zero => simp [data_loop, fill]
  | succ k ih =>
    unfold data_loop
    cases hfs : free_slots mem with
    | nil =>
      rw [data_scan_nil _ _ _ _ _ hfs]
      simp [fill]
    | cons f r =>
      rw [data_scan_cons _ _ _ _ _ _ _ hfs]
      have hf := (mem_free_from mem 63 1 f).1 (by
        show f ∈ free_slots mem
        rw [hfs]; exact List.mem_cons_self _ _)
      have h1 : write mem (f : Int) 1 (ptp : Int) = T := by
        rw [write_other _ _ _ _ (by omega)]; exact hT
      simp only [h1, PAGE_SIZE]
      have h2 : write (write mem (f : Int) 1) ((T * 256 + d : Nat) : Int) f (ptp : Int) = T := by
        rw [write_other _ _ _ _ (by push_cast; omega)]; exact h1
      have h3 : free_slots (write (write mem (f : Int) 1) ((T * 256 + d : Nat) : Int) f) = r := by
        unfold free_slots
        rw [free_from_congr (write mem (f : Int) 1) _ 63 1
          (fun i _ _ => write_other _ _ _ _ (by push_cast; omega))]
        exact free_from_claim _ _ _ _ _ hfs
      rw [ih (d + 1) _ h2, h3]
      simp [fill]

theorem new_process_nil (mem : Mem) (p n : Nat) (h : free_slots mem = []) :
    new_process mem p n = (mem, [Output.oom_page_table p]) := by
  simp only [new_process, table_loop_nil _ _ _ _ h]

/-- Closed form of `new_process` when a slot is free: the lowest free slot becomes
the table page, and the data-page loop consumes the next free slots in order. -/
theorem new_process_cons (mem : Mem) (p n f : Nat) (r : List Nat) (hp : p < 64)
    (h : free_slots mem = f :: r) :
    new_process mem p n =
      (fill f 0 (r.take n) (write (write mem f 1) ((64 + p : Nat) : Int) f),
        if n ≤ r.length then [] else [Output.oom_data_page p]) := by
  simp only [new_process, table_loop_cons _ _ _ _ _ _ h]
  have hf := (mem_free_from mem 63 1 f).1 (by
    show f ∈ free_slots mem
    rw [h]; exact List.mem_cons_self _ _)
  simp only [get_address_zero, PTP_OFFSET]
  have h2 : write (write mem (f : Int) 1) ((64 + p : Nat) : Int) f ((64 + p : Nat) : Int) = f := by
    rw [write_same]; omega
  have h3 : free_slots (write (write mem (f : Int) 1) ((64 + p : Nat) : Int) f) = r := by
    unfold free_slots
    rw [free_from_congr (write mem (f : Int) 1) _ 63 1
      (fun i _ _ => write_other _ _ _ _ (by push_cast; omega))]
    exact free_from_claim _ _ _ _ _ h
  rw [data_loop_eq p (64 + p) f n 0 _ (by omega) (by omega) h2 (by omega), h3]

/-! ## The data-page loop -/

theorem fill_frame (T : Nat) (l : List Nat) (d : Nat) (mem : Mem) (x : Int)
    (h1 : ∀ f ∈ l, x ≠ (f : Int))
    (h2 : ∀ i : Nat, i < l.length → x ≠ ((T * 256 + d + i : Nat) : Int)) :
    fill T d l mem x = mem x := by
  induction l generalizing d mem with
  | nil => rfl
  | cons g r ih =>
    unfold fill
    rw [ih (d + 1) _ (fun f hf => h1 f (List.mem_cons_of_mem _ hf))
      (fun i hi => by
        have := h2 (i + 1) (by simpa using hi)
        intro e; apply this; rw [e]; push_cast; omega)]
    rw [write_other _ _ _ _ (by
      have := h2 0 (by simp)
      simpa using this)]
    exact write_other _ _ _ _ (h1 g (List.mem_cons_self _ _))

theorem fill_bitmap (T : Nat) (l : List Nat) (d : Nat) (mem : Mem) (f : Nat)
    (hT : 1 ≤ T) (hl : ∀ g ∈ l, g < 256) (hnd : l.Nodup) (hf : f ∈ l) :
    fill T d l mem (f : Int) = 1 := by
  induction l generalizing d mem with
  | nil => simp at hf
  | cons g r ih =>
    unfold fill
    rw [List.nodup_cons] at hnd
    by_cases hfr : f ∈ r
    · exact ih _ _ (fun g hg => hl g (List.mem_cons_of_mem _ hg)) hnd.2 hfr
    · have hfg : f = g := by
        rcases List.mem_cons.1 hf with h | h
        · exact h
        · exact absurd h hfr
      subst hfg
      have hf256 := hl f (List.mem_cons_self _ _)
      rw [fill_frame _ _ _ _ _ (fun a ha e => hfr (by
          have : f = a := by exact_mod_cast e
          rw [this]; exact ha))
        (fun i _ e => by
          have : f = T * 256 + (d + 1) + i := by exact_mod_cast e
          omega)]
      rw [write_other _ _ _ _ (by
        intro e
        have : f = T * 256 + d := by exact_mod_cast e
        omega)]
      rw [write_same]; rfl

theorem fill_table (T : Nat) (l : List Nat) (d : Nat) (mem : Mem) (i f : Nat)
    (hT : 1 ≤ T) (hl : ∀ g ∈ l, g < 256) (hi : l[i]? = some f) :
    fill T d l mem ((T * 256 + d + i : Nat) : Int) = f := by
  induction l generalizing d mem i with
  | nil => simp at hi
  | cons g r ih =>
    unfold fill
    cases i with
    | zero =>
      simp only [List.getElem?_cons_zero, Option.some.injEq] at hi
      subst hi
      have hg := hl g (List.mem_cons_self _ _)
      rw [fill_frame _ _ _ _ _ (fun a ha e => by
          have h := hl a (List.mem_cons_of_mem _ ha)
          have : T * 256 + d + 0 = a := by exact_mod_cast e
          omega)
        (fun j _ e => by
          have : T * 256 + d + 0 = T * 256 + (d + 1) + j := by exact_mod_cast e
          omega)]
      rw [Nat.add_zero, write_same]
      omega
    | succ i =>
      simp only [List.getElem?_cons_succ] at hi
      have := ih (d + 1) (write (write mem g 1) ((T * 256 + d : Nat) : Int) g) i
        (fun g hg => hl g (List.mem_cons_of_mem _ hg)) hi
      rw [← this]
      congr 1
      push_cast; omega

theorem free_slots_unique (mem : Mem) (fs : List Nat) (hs : fs.Pairwise (· < ·))
    (hm : ∀ i : Nat, i ∈ fs ↔ 1 ≤ i ∧ i < 64 ∧ mem (i : Int) = 0) :
    fs = free_slots mem := by
  apply List.eq_of_perm_of_sorted (r := (· < ·)) _ hs (free_from_sorted mem 63 1)
  rw [List.perm_ext_iff_of_nodup hs.nodup (free_from_sorted mem 63 1).nodup]
  intro a
  rw [hm a]
  show _ ↔ a ∈ free_from mem 63 1
  rw [mem_free_from]

theorem initialize_mem_apply (mem0 : Mem) (i : Int) :
    initialize_mem mem0 i =
      if i = 0 then 1 else if 0 ≤ i ∧ i < 16384 then 0 else mem0 i := by
  simp only [initialize_mem, get_address_zero, write, memset, MEM_SIZE]
  rfl

/-! ## `new_process` on a bitmap filled in ascending order -/

theorem take_range_succ (a m n : Nat) (h : n ≤ m) :
    (List.range' a m).take n = List.range' a n := by
  induction n generalizing a m with
  | zero => simp
  | succ n ih =>
    obtain ⟨m, rfl⟩ : ∃ k, m = k + 1 := ⟨m - 1, by omega⟩
    rw [List.range'_succ, List.range'_succ, List.take_succ_cons, ih _ _ (by omega)]

theorem fill_seq (T d a m : Nat) (mem : Mem) (hT : 1 ≤ T) (ha : a + m ≤ 256) (x : Int) :
    fill T d (List.range' a m) mem x =
      if (a : Int) ≤ x ∧ x < (a : Int) + m then 1
      else if ((T * 256 + d : Nat) : Int) ≤ x ∧ x < ((T * 256 + d : Nat) : Int) + m then
        (x - ((T * 256 + d : Nat) : Int) + a).toNat
      else mem x := by
  induction m generalizing a d mem with
  | zero =>
    simp only [List.range'_zero, fill]
    rw [if_neg (by omega), if_neg (by omega)]
  | succ m ih =>
    rw [List.range'_succ]
    unfold fill
    rw [ih (d + 1) (a + 1) _ (by omega)]
    unfold write
    push_cast
    split_ifs <;> omega

/-- Closed form of `new_process` on a bitmap whose slots `1..u` are taken and
whose slots `u+1..63` are free; it prints nothing exactly when `u + n + 1 ≤ 63`. -/
theorem new_process_seq (mem : Mem) (u p n : Nat) (hp : p < 64) (hu : u ≤ 63)
    (hused : ∀ i : Nat, 1 ≤ i → i ≤ u → mem (i : Int) ≠ 0)
    (hfree : ∀ i : Nat, u < i → i < 64 → mem (i : Int) = 0) :
    (u + n + 1 ≤ 63 → (new_process mem p n).2 = [] ∧
      ∀ x : Int, (new_process mem p n).1 x =
        if (u : Int) + 1 ≤ x ∧ x ≤ (u : Int) + 1 + n then 1
        else if x = 64 + (p : Int) then u + 1
        else if ((u : Int) + 1) * 256 ≤ x ∧ x < ((u : Int) + 1) * 256 + n then
          (x - ((u : Int) + 1) * 256 + ((u : Int) + 2)).toNat
        else mem x) ∧
    (63 < u + n + 1 → (new_process mem p n).2 ≠ []) := by
  have hfs : free_slots mem = List.range' (u + 1) (63 - u) := by
    symm
    apply free_slots_unique mem _ (List.pairwise_lt_range' _ _)
    intro i
    rw [List.mem_range'_1]
    constructor
    · rintro ⟨h1, h2⟩
      exact ⟨by omega, by omega, hfree i (by omega) (by omega)⟩
    · rintro ⟨h1, h2, h3⟩
      have : ¬ i ≤ u := fun h => hused i h1 h h3
      omega
  by_cases hu63 : u = 63
  · subst hu63
    refine ⟨fun h => by omega, fun _ => ?_⟩
    rw [new_process_nil mem p n (by rw [hfs]; rfl)]
    simp
  · obtain ⟨m, hm⟩ : ∃ m, 63 - u = m + 1 := ⟨62 - u, by omega⟩
    rw [hm, List.range'_succ] at hfs
    rw [new_process_cons mem p n _ _ hp hfs]
    simp only [List.length_range']
    refine ⟨fun h => ⟨if_pos (by omega), fun x => ?_⟩, fun h => by rw [if_neg (by omega)]; simp⟩
    rw [take_range_succ _ _ _ (by omega), fill_seq _ _ _ _ _ (by omega) (by omega)]
    unfold write
    push_cast
    split_ifs <;> omega

/-! ## The layout invariant -/

theorem pages_used_cons (e : Nat × Nat) (L : List (Nat × Nat)) :
    pages_used (e :: L) = e.2 + 1 + pages_used L := rfl

theorem table_of_cons (e : Nat × Nat) (L : List (Nat × Nat)) (p : Nat) :
    table_of (e :: L) p = if p = e.1 then 1 + pages_used L else table_of L p := rfl

theorem table_of_bounds (L : List (Nat × Nat)) (hd : L.Pairwise (fun a b => a.1 ≠ b.1))
    (e : Nat × Nat) (he : e ∈ L) :
    1 ≤ table_of L e.1 ∧ table_of L e.1 + e.2 ≤ pages_used L := by
  induction L with
  | nil => simp at he
  | cons a L ih =>
    rw [List.pairwise_cons] at hd
    rw [table_of_cons, pages_used_cons]
    rcases List.mem_cons.1 he with rfl | h
    · rw [if_pos rfl]; omega
    · rw [if_neg (fun h1 => hd.1 e h h1.symm)]
      have := ih hd.2 h
      omega

theorem table_of_disjoint (L : List (Nat × Nat)) (hd : L.Pairwise (fun a b => a.1 ≠ b.1))
    (e1 e2 : Nat × Nat) (h1 : e1 ∈ L) (h2 : e2 ∈ L) (hne : e1.1 ≠ e2.1) :
    table_of L e1.1 + e1.2 < table_of L e2.1 ∨ table_of L e2.1 + e2.2 < table_of L e1.1 := by
  induction L with
  | nil => simp at h1
  | cons a L ih =>
    rw [List.pairwise_cons] at hd
    rw [table_of_cons, table_of_cons]
    rcases List.mem_cons.1 h1 with rfl | h3
    · rcases List.mem_cons.1 h2 with rfl | h4
      · exact absurd rfl hne
      · rw [if_pos rfl, if_neg (fun h => hne h.symm)]
        have := table_of_bounds L hd.2 e2 h4
        omega
    · rcases List.mem_cons.1 h2 with rfl | h4
      · rw [if_pos rfl, if_neg hne]
        have := table_of_bounds L hd.2 e1 h3
        omega
      · rw [if_neg (fun h => hd.1 e1 h3 h.symm), if_neg (fun h => hd.1 e2 h4 h.symm)]
        exact ih hd.2 h3 h4

theorem layout_init (mem0 : Mem) : Layout (initialize_mem mem0) [] where
  distinct := List.Pairwise.nil
  pid_lt := fun e he => by simp at he
  room := by simp [pages_used]
  bitmap_used := fun i hi => by
    simp only [pages_used] at hi
    rw [initialize_mem_apply, if_pos (by omega)]
  bitmap_free := fun i h1 h2 => by
    rw [initialize_mem_apply, if_neg (by omega), if_pos (by omega)]
  dir := fun e he => by simp at he
  dir_none := fun q hq _ => by
    rw [initialize_mem_apply, if_neg (by omega), if_pos (by omega)]
  table_lo := fun e he => by simp at he
  table_hi := fun e he => by simp at he
  free_zero := fun x h1 h2 => by
    simp only [pages_used] at h1
    rw [initialize_mem_apply, if_neg (by omega), if_pos (by omega)]

theorem layout_new_process (mem : Mem) (L : List (Nat × Nat)) (p n : Nat)
    (h : Layout mem L) (hp : p < 64) (hfresh : ∀ e ∈ L, e.1 ≠ p)
    (hout : (new_process mem p n).2 = []) :
    Layout (new_process mem p n).1 ((p, n) :: L) := by
  have hseq := new_process_seq mem (pages_used L) p n hp h.room
    (fun i _ h2 => by rw [h.bitmap_used i h2]; decide) h.bitmap_free
  have hroom : pages_used L + n + 1 ≤ 63 := by
    by_contra hc
    exact hseq.2 (by omega) hout
  have hx := (hseq.1 hroom).2
  have hpu : pages_used ((p, n) :: L) = n + 1 + pages_used L := rfl
  have htab : ∀ e ∈ L, table_of ((p, n) :: L) e.1 = table_of L e.1 := fun e he => by
    rw [table_of_cons, if_neg (hfresh e he)]
  have htp : table_of ((p, n) :: L) p = 1 + pages_used L := by
    rw [table_of_cons, if_pos rfl]
  refine ⟨List.pairwise_cons.2 ⟨fun e he => (hfresh e he).symm, h.distinct⟩, ?_, ?_, ?_, ?_,
    ?_, ?_, ?_, ?_, ?_⟩
  · intro e he
    rcases List.mem_cons.1 he with rfl | he
    · exact hp
    · exact h.pid_lt e he
  · rw [hpu]; omega
  · intro i hi
    rw [hpu] at hi
    rw [hx]
    have := h.bitmap_used i
    split_ifs <;> omega
  · intro i h1 h2
    rw [hpu] at h1
    rw [hx]
    have := h.bitmap_free i
    split_ifs <;> omega
  · intro e he
    rw [hx]
    rcases List.mem_cons.1 he with rfl | he
    · rw [htp]
      push_cast
      split_ifs <;> omega
    · rw [htab e he]
      have h1 := h.dir e he
      have h2 := hfresh e he
      have h3 := h.pid_lt e he
      push_cast at h1 ⊢
      split_ifs <;> omega
  · intro q hq hnone
    rw [hx]
    have h1 := h.dir_none q hq (fun e he => hnone e (List.mem_cons_of_mem _ he))
    have h2 : p ≠ q := hnone (p, n) (List.mem_cons_self _ _)
    push_cast at h1 ⊢
    split_ifs <;> omega
  · intro e he i hi
    rw [hx]
    rcases List.mem_cons.1 he with rfl | he
    · rw [htp]
      push_cast
      simp only at hi
      split_ifs <;> omega
    · rw [htab e he]
      have h1 := h.table_lo e he i hi
      have h2 := table_of_bounds L h.distinct e he
      push_cast at h1 ⊢
      split_ifs <;> omega
  · intro e he i hi1 hi2
    rw [hx]
    rcases List.mem_cons.1 he with rfl | he
    · rw [htp]
      have h1 := h.free_zero ((1 + pages_used L) * 256 + i) (by omega) (by omega)
      push_cast at h1 ⊢
      simp only at hi1
      split_ifs <;> omega
    · rw [htab e he]
      have h1 := h.table_hi e he i hi1 hi2
      have h2 := table_of_bounds L h.distinct e he
      push_cast at h1 ⊢
      split_ifs <;> omega
  · intro x hx1 hx2
    rw [hpu] at hx1
    rw [hx]
    have h1 := h.free_zero x (by omega) hx2
    split_ifs <;> omega

/-! ## Translation, stores and reachable states -/

/-- Translation of a virtual address inside the data pages of a created process. -/
theorem gpa_mapped (mem : Mem) (L : List (Nat × Nat)) (h : Layout mem L) (e : Nat × Nat)
    (he : e ∈ L) (v : Nat) (hv : v < e.2 * 256) :
    get_physical_address mem e.1 v =
      (((table_of L e.1 + 1 + v / 256) * 256 + v % 256 : Nat) : Int) := by
  have hb := table_of_bounds L h.distinct e he
  have hr := h.room
  rw [get_physical_address_eq mem e.1 v (by omega), h.dir e he,
    h.table_lo e he (v / 256) (by omega), if_neg (by omega)]

/-- Translation of a virtual address past the data pages of a created process. -/
theorem gpa_unmapped (mem : Mem) (L : List (Nat × Nat)) (h : Layout mem L) (e : Nat × Nat)
    (he : e ∈ L) (v : Nat) (hv1 : e.2 ≤ v >>> 8) (hv2 : v >>> 8 < 256) :
    get_physical_address mem e.1 v = -1 := by
  rw [Nat.shiftRight_eq_div_pow] at hv1 hv2
  rw [get_physical_address_eq mem e.1 v (by omega), h.dir e he,
    h.table_hi e he (v / 256) (by omega) (by omega), if_pos rfl]

theorem layout_store (mem : Mem) (L : List (Nat × Nat)) (p n v : Nat) (x : Int)
    (h : Layout mem L) (hp : (p, n) ∈ L) (hv : v < n * 256) :
    Layout (store_value_at_vir_addr mem p v x).1 L := by
  have ha := gpa_mapped mem L h (p, n) hp v hv
  have hb := table_of_bounds L h.distinct (p, n) hp
  simp only at ha hb
  have hr := h.room
  have hframe : ∀ y : Nat, (y < (table_of L p + 1) * 256 ∨ (table_of L p + n + 1) * 256 ≤ y) →
      (store_value_at_vir_addr mem p v x).1 (y : Int) = mem (y : Int) := fun y hy => by
    simp only [store_value_at_vir_addr, ha]
    exact write_other _ _ _ _ (by push_cast; omega)
  refine ⟨h.distinct, h.pid_lt, h.room, ?_, ?_, ?_, ?_, ?_, ?_, ?_⟩
  · intro i hi
    rw [hframe i (by omega)]; exact h.bitmap_used i hi
  · intro i h1 h2
    rw [hframe i (by omega)]; exact h.bitmap_free i h1 h2
  · intro e he
    have := h.pid_lt e he
    rw [hframe _ (by omega)]; exact h.dir e he
  · intro q hq hnone
    rw [hframe _ (by omega)]; exact h.dir_none q hq hnone
  · intro e he i hi
    have h1 := table_of_bounds L h.distinct e he
    have h2 : table_of L e.1 * 256 + i < (table_of L p + 1) * 256 ∨
        (table_of L p + n + 1) * 256 ≤ table_of L e.1 * 256 + i := by
      by_cases hep : e.1 = p
      · rw [hep]; omega
      · have := table_of_disjoint L h.distinct e (p, n) he hp hep
        simp only at this
        omega
    rw [hframe _ h2]; exact h.table_lo e he i hi
  · intro e he i hi1 hi2
    have h1 := table_of_bounds L h.distinct e he
    have h2 : table_of L e.1 * 256 + i < (table_of L p + 1) * 256 ∨
        (table_of L p + n + 1) * 256 ≤ table_of L e.1 * 256 + i := by
      by_cases hep : e.1 = p
      · rw [hep]; omega
      · have := table_of_disjoint L h.distinct e (p, n) he hp hep
        simp only at this
        omega
    rw [hframe _ h2]; exact h.table_hi e he i hi1 hi2
  · intro y h1 h2
    rw [hframe y (by omega)]; exact h.free_zero y h1 h2

theorem createdStored_layout (mem : Mem) (L : List (Nat × Nat)) (h : CreatedStored mem L) :
    Layout mem L := by
  induction h with
  | init mem0 => exact layout_init mem0
  | create mem L p n _ hp hfresh hout ih => exact layout_new_process mem L p n ih hp hfresh hout
  | store mem L p n v x _ hp hv ih => exact layout_store mem L p n v x ih hp hv

theorem created_stored (mem : Mem) (L : List (Nat × Nat)) (h : Created mem L) :
    CreatedStored mem L := by
  induction h with
  | init mem0 => exact CreatedStored.init mem0
  | create mem L p n _ hp hfresh hout ih => exact CreatedStored.create mem L p n ih hp hfresh hout

theorem created_layout (mem : Mem) (L : List (Nat × Nat)) (h : Created mem L) :
    Layout mem L :=
  createdStored_layout mem L (created_stored mem L h)

theorem get_page_table_eq (mem : Mem) (p : Nat) :
    get_page_table mem p = mem ((64 + p : Nat) : Int) := by
  simp only [get_page_table, get_address_zero, PTP_OFFSET]

theorem store_fault_eq (mem : Mem) (p v : Nat) (x : Int)
    (h : get_physical_address mem p v = -1) :
    store_value_at_vir_addr mem p v x =
      (write mem (-1) x, [Output.page_fault p v, Output.store_line p v (-1) x]) := by
  simp only [store_value_at_vir_addr, h, if_true, List.singleton_append]

theorem load_fault_eq (mem : Mem) (p v : Nat)
    (h : get_physical_address mem p v = -1) :
    get_value_at_vir_addr mem p v =
      [Output.page_fault p v, Output.load_line p v (-1) (mem (-1))] := by
  simp only [get_value_at_vir_addr, h, if_true, List.singleton_append]

/-! ## `free_process` -/

theorem zero_loop_apply (pa k j : Nat) (mem : Mem) (x : Int) :
    zero_loop pa k j mem x =
      if ((pa + j : Nat) : Int) ≤ x ∧ x < ((pa + j : Nat) : Int) + k then 0 else mem x := by
  induction k generalizing j mem with
  | zero =>
    simp only [zero_loop]
    rw [if_neg (by omega)]
  | succ k ih =>
    unfold zero_loop
    rw [ih]
    unfold write
    push_cast
    split_ifs <;> omega

/-- Closed form of the slot loop of `free_process` over a table page `T` whose
entries are `T+1, T+2, ..., T+n` followed by zeroes. -/
theorem free_loop_seq (T n : Nat) (hT : 1 ≤ T) (hn : T + n ≤ 63) (k i : Nat) (mem : Mem)
    (hk : i + k = 256)
    (hlo : ∀ j : Nat, i ≤ j → j < n → mem ((T * 256 + j : Nat) : Int) = T + 1 + j)
    (hhi : ∀ j : Nat, i ≤ j → n ≤ j → j < 256 → mem ((T * 256 + j : Nat) : Int) = 0)
    (x : Int) :
    free_loop (T * 256) k i mem x =
      if ((T : Int) + 1 + i ≤ x ∧ x < (T : Int) + 1 + n) ∨
          (((T : Int) + 1 + i) * 256 ≤ x ∧ x < ((T : Int) + 1 + n) * 256) then 0
      else mem x := by
  induction k generalizing i mem with
  | zero =>
    simp only [free_loop]
    rw [if_neg (by omega)]
  | succ k ih =>
    unfold free_loop
    by_cases hin : i < n
    · have he := hlo i (le_refl _) hin
      simp only [he, PAGE_SIZE]
      rw [if_pos (by omega)]
      rw [ih (i + 1) _ (by omega)
        (fun j h1 h2 => by
          rw [write_other _ _ _ _ (by push_cast; omega), zero_loop_apply,
            if_neg (by push_cast; omega)]
          exact hlo j (by omega) h2)
        (fun j h1 h2 h3 => by
          rw [write_other _ _ _ _ (by push_cast; omega), zero_loop_apply,
            if_neg (by push_cast; omega)]
          exact hhi j (by omega) h2 h3)]
      unfold write
      rw [zero_loop_apply]
      push_cast
      split_ifs <;> omega
    · have he := hhi i (le_refl _) (by omega) (by omega)
      simp only [he]
      rw [if_neg (by simp)]
      rw [ih (i + 1) mem (by omega) (fun j h1 h2 => hlo j (by omega) h2)
        (fun j h1 h2 h3 => hhi j (by omega) h2 h3)]
      push_cast
      split_ifs <;> omega

/-- Closed form of `free_process` in a state with the layout invariant.  The
table base it computes is `mem[t] * 256` with `t` the table page of the process,
and `mem[t]` is the bitmap entry 1, so the table it walks is always page 1, the
table page of the process `e1` created first: the data pages of `e1` are zeroed
and unmarked, and the bitmap entry of `t` is cleared. -/
theorem free_process_layout (mem : Mem) (L : List (Nat × Nat)) (h : Layout mem L)
    (e e1 : Nat × Nat) (he : e ∈ L) (he1 : e1 ∈ L) (h1 : table_of L e1.1 = 1) (x : Int) :
    free_process mem e.1 x =
      if x = (table_of L e.1 : Int) then 0
      else if (2 ≤ x ∧ x < 2 + (e1.2 : Int)) ∨ (512 ≤ x ∧ x < (2 + (e1.2 : Int)) * 256) then 0
      else mem x := by
  have hb := table_of_bounds L h.distinct e he
  have hb1 := table_of_bounds L h.distinct e1 he1
  have hr := h.room
  have hlo := h.table_lo e1 he1
  have hhi := h.table_hi e1 he1
  rw [h1] at hlo hhi hb1
  unfold free_process
  have hbm := h.bitmap_used (table_of L e.1) (by omega)
  simp only [get_page_table_eq, h.dir e he, PAGE_SIZE]
  rw [hbm]
  unfold write
  rw [free_loop_seq 1 e1.2 (le_refl _) (by omega) 256 0 mem rfl
    (fun j _ hj => hlo j hj) (fun j _ h2 h3 => hhi j h2 h3)]
  push_cast
  split_ifs <;> omega

theorem created_of_room (mem : Mem) (L : List (Nat × Nat)) (p n : Nat) (h : Created mem L)
    (hp : p < 64) (hfresh : ∀ e ∈ L, e.1 ≠ p) (hroom : pages_used L + n + 1 ≤ 63) :
    Created (new_process mem p n).1 ((p, n) :: L) := by
  have hl := created_layout mem L h
  have hseq := new_process_seq mem (pages_used L) p n hp hl.room
    (fun i _ h2 => by rw [hl.bitmap_used i h2]; decide) hl.bitmap_free
  exact Created.create mem L p n h hp hfresh (hseq.1 hroom).1

/-! ## The effect of `new_process` and `free_process` on any state -/

theorem free_slots_mem (mem : Mem) (g : Nat) (h : g ∈ free_slots mem) :
    1 ≤ g ∧ g < 64 ∧ mem (g : Int) = 0 := by
  have := (mem_free_from mem 63 1 g).1 h
  omega

/-- What `new_process` does when the lowest free slot is `f0` and the further
free slots are `r`, for every memory state: its output, the cells it writes
and the cells it leaves alone. -/
theorem new_process_spec (mem : Mem) (p n f0 : Nat) (r : List Nat) (hp : p < 64)
    (hfs : free_slots mem = f0 :: r) :
    (new_process mem p n).2 = (if n ≤ r.length then [] else [Output.oom_data_page p]) ∧
    (new_process mem p n).1 ((64 + p : Nat) : Int) = f0 ∧
    (new_process mem p n).1 (f0 : Int) = 1 ∧
    (∀ g ∈ r.take n, (new_process mem p n).1 (g : Int) = 1) ∧
    (∀ i g : Nat, (r.take n)[i]? = some g →
      (new_process mem p n).1 ((f0 * 256 + i : Nat) : Int) = g) ∧
    (∀ x : Int, x ≠ (f0 : Int) → (∀ g ∈ r.take n, x ≠ (g : Int)) → x ≠ ((64 + p : Nat) : Int) →
      (∀ i : Nat, i < (r.take n).length → x ≠ ((f0 * 256 + i : Nat) : Int)) →
      (new_process mem p n).1 x = mem x) := by
  have hsorted : (f0 :: r).Pairwise (· < ·) := hfs ▸ free_from_sorted mem 63 1
  have hbound : ∀ g ∈ f0 :: r, 1 ≤ g ∧ g < 64 := fun g hg => by
    have := free_slots_mem mem g (hfs ▸ hg)
    omega
  have hf0 := hbound f0 (List.mem_cons_self _ _)
  have htake : ∀ g ∈ r.take n, g < 256 := fun g hg => by
    have := hbound g (List.mem_cons_of_mem _ (List.mem_of_mem_take hg))
    omega
  have hnd : (r.take n).Nodup :=
    ((List.pairwise_cons.1 hsorted).2.nodup).sublist (List.take_sublist _ _)
  rw [new_process_cons mem p n f0 r hp hfs]
  dsimp only
  refine ⟨rfl, ?_, ?_, fun g hg => ?_, fun i g hi => ?_, fun x h1 h2 h3 h4 => ?_⟩
  · rw [fill_frame _ _ _ _ _ (fun g hg e => by
        have : 64 + p = g := by exact_mod_cast e
        have := hbound g (List.mem_cons_of_mem _ (List.mem_of_mem_take hg))
        omega)
      (fun i _ e => by
        have : 64 + p = f0 * 256 + 0 + i := by exact_mod_cast e
        omega)]
    rw [write_same]; omega
  · rw [fill_frame _ _ _ _ _ (fun g hg e => by
        have : f0 = g := by exact_mod_cast e
        have h1 := (List.pairwise_cons.1 hsorted).1 g (List.mem_of_mem_take hg)
        omega)
      (fun i _ e => by
        have : f0 = f0 * 256 + 0 + i := by exact_mod_cast e
        omega)]
    rw [write_other _ _ _ _ (by push_cast; omega), write_same]; rfl
  · exact fill_bitmap _ _ _ _ _ hf0.1 htake hnd hg
  · have := fill_table f0 (r.take n) 0 (write (write mem f0 1) ((64 + p : Nat) : Int) f0)
      i g hf0.1 htake hi
    simpa using this
  · rw [fill_frame _ _ _ _ _ h2 (fun i hi => by simpa using h4 i hi)]
    rw [write_other _ _ _ _ h3, write_other _ _ _ _ h1]

theorem free_from_length (mem : Mem) (k ft : Nat) : (free_from mem k ft).length ≤ k := by
  induction k generalizing ft with
  | zero => simp [free_from]
  | succ k ih =>
    unfold free_from
    have := ih (ft + 1)
    split <;> simp <;> omega

theorem new_process_dir (mem : Mem) (p n : Nat) (hp : p < 64)
    (h : (new_process mem p n).2 ≠ [Output.oom_page_table p]) :
    1 ≤ (new_process mem p n).1 ((64 + p : Nat) : Int) ∧
    (new_process mem p n).1 ((64 + p : Nat) : Int) ≤ 63 := by
  cases hfs : free_slots mem with
  | nil =>
    rw [new_process_nil mem p n hfs] at h
    exact absurd rfl h
  | cons f0 r =>
    have hf0 := free_slots_mem mem f0 (by rw [hfs]; exact List.mem_cons_self _ _)
    rw [(new_process_spec mem p n f0 r hp hfs).2.1]
    omega

/-- The effect of `new_process` on a cell, for every memory state: the cell
keeps its value, or it is a free bitmap slot that becomes 1, or it is the
directory entry of `p`, or it is one of the first `n` slots of the page named by
that entry; the values written in the last two cases are in 1..63. -/
theorem new_process_effect (mem : Mem) (p n : Nat) (hp : p < 64) (x : Int) :
    (new_process mem p n).1 x = mem x ∨
    (1 ≤ x ∧ x ≤ 63 ∧ mem x = 0 ∧ (new_process mem p n).1 x = 1) ∨
    (x = ((64 + p : Nat) : Int) ∧ 1 ≤ (new_process mem p n).1 x ∧
      (new_process mem p n).1 x ≤ 63) ∨
    (∃ i : Nat, i < n ∧ i < 63 ∧
      x = (((new_process mem p n).1 ((64 + p : Nat) : Int) * 256 + i : Nat) : Int) ∧
      1 ≤ (new_process mem p n).1 x ∧ (new_process mem p n).1 x ≤ 63 ∧
      1 ≤ (new_process mem p n).1 ((64 + p : Nat) : Int) ∧
      (new_process mem p n).1 ((64 + p : Nat) : Int) ≤ 63 ∧
      mem ((new_process mem p n).1 ((64 + p : Nat) : Int) : Int) = 0) := by
  cases hfs : free_slots mem with
  | nil =>
    rw [new_process_nil mem p n hfs]
    exact Or.inl rfl
  | cons f0 r =>
    have hmem : ∀ g ∈ f0 :: r, 1 ≤ g ∧ g < 64 ∧ mem (g : Int) = 0 := fun g hg =>
      free_slots_mem mem g (hfs ▸ hg)
    have hf0 := hmem f0 (List.mem_cons_self _ _)
    obtain ⟨-, h2, h3, h4, h5, h6⟩ := new_process_spec mem p n f0 r hp hfs
    by_cases hx1 : x = (f0 : Int)
    · subst hx1
      exact Or.inr (Or.inl ⟨by omega, by omega, hf0.2.2, h3⟩)
    by_cases hx2 : ∃ g ∈ r.take n, x = (g : Int)
    · obtain ⟨g, hg, rfl⟩ := hx2
      have := hmem g (List.mem_cons_of_mem _ (List.mem_of_mem_take hg))
      exact Or.inr (Or.inl ⟨by omega, by omega, this.2.2, h4 g hg⟩)
    by_cases hx3 : x = ((64 + p : Nat) : Int)
    · subst hx3
      exact Or.inr (Or.inr (Or.inl ⟨rfl, by omega, by omega⟩))
    by_cases hx4 : ∃ i : Nat, i < (r.take n).length ∧ x = ((f0 * 256 + i : Nat) : Int)
    · obtain ⟨i, hi, rfl⟩ := hx4
      have hg := h5 i (r.take n)[i] (List.getElem?_eq_getElem hi)
      have hgm := hmem _ (List.mem_cons_of_mem _ (List.mem_of_mem_take (List.getElem_mem hi)))
      have hin : i < n := lt_of_lt_of_le hi (List.length_take_le n r)
      have hlen : (f0 :: r).length ≤ 63 := hfs ▸ free_from_length mem 63 1
      have hi63 : i < 63 := by
        have h1 : (r.take n).length ≤ r.length := by
          rw [List.length_take]; exact Nat.min_le_right _ _
        simp only [List.length_cons] at hlen
        omega
      refine Or.inr (Or.inr (Or.inr ⟨i, hin, hi63, by rw [h2], ?_, ?_, by omega, by omega, ?_⟩))
      · rw [hg]; omega
      · rw [hg]; omega
      · rw [h2]; exact hf0.2.2
    · left
      exact h6 x hx1 (fun g hg e => hx2 ⟨g, hg, e⟩) hx3 (fun i hi e => hx4 ⟨i, hi, e⟩)

/-- The effect of the slot loop of `free_process` on a cell, when every byte of
the array is below 64 and the table it walks lies in the array: the cell keeps
its value, or it becomes 0 and is a bitmap slot 1..63 or lies in pages 1..63. -/
theorem free_loop_cases (pta k i : Nat) (mem : Mem) (hb : Bounded mem)
    (hr : pta + i + k ≤ 16384) (x : Int) :
    free_loop pta k i mem x = mem x ∨
    (free_loop pta k i mem x = 0 ∧ ((1 ≤ x ∧ x < 64) ∨ (256 ≤ x ∧ x < 16384))) := by
  induction k generalizing i mem with
  | zero => exact Or.inl rfl
  | succ k ih =>
    unfold free_loop
    have hpn := hb (pta + i) (by omega)
    by_cases h0 : mem ((pta + i : Nat) : Int) = 0
    · simp only [h0, ne_eq, not_true_eq_false, if_false]
      exact ih (i + 1) mem hb (by omega)
    · simp only [ne_eq, h0, not_false_eq_true, if_true, PAGE_SIZE]
      generalize mem ((pta + i : Nat) : Int) = pn at hpn h0 ⊢
      have hb1 : Bounded (write (zero_loop (pn * 256) 256 0 mem) pn 0) := fun y hy => by
        have := hb y hy
        unfold write
        rw [zero_loop_apply]
        split_ifs <;> omega
      have hstep : ∀ y : Int,
          write (zero_loop (pn * 256) 256 0 mem) pn 0 y = mem y ∨
          (write (zero_loop (pn * 256) 256 0 mem) pn 0 y = 0 ∧
            ((1 ≤ y ∧ y < 64) ∨ (256 ≤ y ∧ y < 16384))) := fun y => by
        unfold write
        rw [zero_loop_apply]
        push_cast
        split_ifs
        · right; exact ⟨rfl, by omega⟩
        · right; exact ⟨rfl, by omega⟩
        · left; rfl
      rcases ih (i + 1) _ hb1 (by omega) with h | h
      · rw [h]; exact hstep x
      · exact Or.inr h

theorem free_process_cases (mem : Mem) (p : Nat) (hb : Bounded mem) (hp : p < 64) (x : Int) :
    free_process mem p x = mem x ∨
    (free_process mem p x = 0 ∧
      (x = (mem ((64 + p : Nat) : Int) : Int) ∨ (1 ≤ x ∧ x < 64) ∨ (256 ≤ x ∧ x < 16384))) := by
  have h1 := hb (64 + p) (by omega)
  have h2 := hb (mem ((64 + p : Nat) : Int)) (by omega)
  unfold free_process
  simp only [get_page_table_eq, PAGE_SIZE]
  unfold write
  by_cases hx : x = (mem ((64 + p : Nat) : Int) : Int)
  · rw [if_pos hx]
    exact Or.inr ⟨rfl, Or.inl hx⟩
  · rw [if_neg hx]
    rcases free_loop_cases (mem (mem ((64 + p : Nat) : Int) : Int) * 256) 256 0 mem hb
      (by omega) x with h | h
    · exact Or.inl h
    · exact Or.inr ⟨h.1, Or.inr h.2⟩

theorem bounded_init (mem0 : Mem) : Bounded (initialize_mem mem0) := fun y hy => by
  rw [initialize_mem_apply]
  split_ifs <;> omega

theorem bounded_new_process (mem : Mem) (p n : Nat) (hb : Bounded mem) (hp : p < 64) :
    Bounded (new_process mem p n).1 := fun y hy => by
  have := hb y hy
  rcases new_process_effect mem p n hp (y : Int) with h | h | h | ⟨i, h⟩ <;> omega

theorem bounded_free_process (mem : Mem) (p : Nat) (hb : Bounded mem) (hp : p < 64) :
    Bounded (free_process mem p) := fun y hy => by
  have := hb y hy
  rcases free_process_cases mem p hb hp (y : Int) with h | h <;> omega

theorem runAny_bounded (mem : Mem) (h : RunAny mem) : Bounded mem := by
  induction h with
  | init mem0 => exact bounded_init mem0
  | create mem p n _ hp ih => exact bounded_new_process mem p n ih hp
  | free mem p _ hp ih => exact bounded_free_process mem p ih hp

theorem run_invariant (mem : Mem) (C : List Nat) (h : Run mem C) :
    Bounded mem ∧ mem 0 = 1 ∧ ∀ q ∈ C, q < 64 ∧ mem ((64 + q : Nat) : Int) ≠ 0 := by
  induction h with
  | init mem0 =>
    refine ⟨bounded_init mem0, ?_, fun q hq => by simp at hq⟩
    rw [initialize_mem_apply, if_pos rfl]
  | create mem C p n _ hp ih =>
    obtain ⟨hb, h0, hC⟩ := ih
    refine ⟨bounded_new_process mem p n hb hp, ?_, fun q hq => ?_⟩
    · rcases new_process_effect mem p n hp 0 with h | h | h | ⟨i, h⟩ <;> omega
    · have hold : q ∈ C → q < 64 ∧ (new_process mem p n).1 ((64 + q : Nat) : Int) ≠ 0 :=
        fun hqC => by
          have := hC q hqC
          refine ⟨this.1, ?_⟩
          rcases new_process_effect mem p n hp ((64 + q : Nat) : Int) with h | h | h | ⟨i, h⟩
            <;> omega
      by_cases hout : (new_process mem p n).2 = [Output.oom_page_table p]
      · rw [if_pos hout] at hq
        exact hold hq
      · rw [if_neg hout] at hq
        rcases List.mem_cons.1 hq with rfl | hq
        · have := new_process_dir mem q n hp hout
          exact ⟨hp, by omega⟩
        · exact hold hq
  | free mem C p _ hpC ih =>
    obtain ⟨hb, h0, hC⟩ := ih
    have hp := hC p hpC
    refine ⟨bounded_free_process mem p hb hp.1, ?_, fun q hq => ?_⟩
    · rcases free_process_cases mem p hb hp.1 0 with h | h
      · rw [h]; exact h0
      · omega
    · have hq2 := hC q hq
      have hbp := hb (64 + p) (by omega)
      refine ⟨hq2.1, ?_⟩
      rcases free_process_cases mem p hb hp.1 ((64 + q : Nat) : Int) with h | h
      · rw [h]; exact hq2.2
      · omega

/-- Closed form of `free_process` in a state with the layout invariant, for a
process id `q` that has no directory entry.  `process_page_table_pointer` is 0,
the table base is `mem[0] * 256 = 256`, so the table walked is page 1, the table
page of the process `e1` created first, and the final assignment clears
`mem[0]`. -/
theorem free_process_layout_none (mem : Mem) (L : List (Nat × Nat)) (h : Layout mem L)
    (q : Nat) (e1 : Nat × Nat) (hq : q < 64) (hnone : ∀ e ∈ L, e.1 ≠ q) (he1 : e1 ∈ L)
    (h1 : table_of L e1.1 = 1) (x : Int) :
    free_process mem q x =
      if x = 0 then 0
      else if (2 ≤ x ∧ x < 2 + (e1.2 : Int)) ∨ (512 ≤ x ∧ x < (2 + (e1.2 : Int)) * 256) then 0
      else mem x := by
  have hb1 := table_of_bounds L h.distinct e1 he1
  have hr := h.room
  have hlo := h.table_lo e1 he1
  have hhi := h.table_hi e1 he1
  rw [h1] at hlo hhi hb1
  have hbm := h.bitmap_used 0 (Nat.zero_le _)
  have hd := h.dir_none q hq hnone
  unfold free_process
  simp only [get_page_table_eq, hd, PAGE_SIZE]
  rw [hbm]
  unfold write
  rw [free_loop_seq 1 e1.2 (le_refl _) (by omega) 256 0 mem rfl
    (fun j _ hj => hlo j hj) (fun j _ h2 h3 => hhi j h2 h3)]
  push_cast
  split_ifs <;> omega

theorem gpa_of_entries (mem : Mem) (p v t e : Nat) (hv : v < 65536)
    (ht : mem ((64 + p : Nat) : Int) = t) (he : mem ((t * 256 + v / 256 : Nat) : Int) = e) :
    get_physical_address mem p v =
      if e = 0 then -1 else ((e * 256 + v % 256 : Nat) : Int) := by
  rw [get_physical_address_eq mem p v hv, ht, he]

theorem store_ok_eq (mem : Mem) (p v : Nat) (x a : Int)
    (h : get_physical_address mem p v = a) (ha : a ≠ -1) :
    store_value_at_vir_addr mem p v x = (write mem a x, [Output.store_line p v a x]) := by
  simp only [store_value_at_vir_addr, h, if_neg ha, List.nil_append]

theorem load_ok_eq (mem : Mem) (p v : Nat) (a : Int)
    (h : get_physical_address mem p v = a) (ha : a ≠ -1) :
    get_value_at_vir_addr mem p v = [Output.load_line p v a (mem a)] := by
  simp only [get_value_at_vir_addr, h, if_neg ha, List.nil_append]

theorem exists_first_process (L : List (Nat × Nat)) (hd : L.Pairwise (fun a b => a.1 ≠ b.1))
    (hne : L ≠ []) : ∃ e1 ∈ L, table_of L e1.1 = 1 := by
  induction L with
  | nil => exact absurd rfl hne
  | cons a L ih =>
    rw [List.pairwise_cons] at hd
    cases L with
    | nil => exact ⟨a, List.mem_cons_self _ _, by rw [table_of_cons, if_pos rfl]; rfl⟩
    | cons b L =>
      obtain ⟨e1, he1, h1⟩ := ih hd.2 (by simp)
      refine ⟨e1, List.mem_cons_of_mem _ he1, ?_⟩
      rw [table_of_cons, if_neg (fun h => hd.1 e1 he1 h.symm)]
      exact h1

/-- In a state with the layout invariant, `free_process` of a created process
leaves its directory entry as it was and clears the bitmap entry of the page
that entry names. -/
theorem free_process_dir (mem : Mem) (L : List (Nat × Nat)) (h : Layout mem L)
    (e : Nat × Nat) (he : e ∈ L) :
    get_page_table (free_process mem e.1) e.1 = get_page_table mem e.1 ∧
    1 ≤ get_page_table mem e.1 ∧ get_page_table mem e.1 ≤ 63 ∧
    free_process mem e.1 (get_page_table mem e.1 : Int) = 0 := by
  obtain ⟨e1, he1, h1⟩ := exists_first_process L h.distinct (List.ne_nil_of_mem he)
  have hb := table_of_bounds L h.distinct e he
  have hb1 := table_of_bounds L h.distinct e1 he1
  have hr := h.room
  have hpid := h.pid_lt e he
  have hfp := free_process_layout mem L h e e1 he he1 h1
  rw [get_page_table_eq, get_page_table_eq, h.dir e he]
  refine ⟨?_, by omega, by omega, ?_⟩
  · rw [hfp, if_neg (by push_cast; omega), if_neg (by push_cast; omega)]
    exact h.dir e he
  · rw [hfp, if_pos rfl]

theorem read_in (mem : Mem) (i : Nat) (h : i < 16384) : read mem (i : Int) = some (mem (i : Int)) := by
  unfold read MEM_SIZE
  rw [if_pos ⟨by omega, by omega⟩]

/-- When the directory byte of `p` is below 64, every access of
`get_physical_address` is inside the array and the bounds-checked function
agrees with `get_physical_address`. -/
theorem get_physical_address_checked_eq (mem : Mem) (p v : Nat) (hp : p < 64) (hv : v < 65536)
    (ht : mem ((64 + p : Nat) : Int) < 64) :
    get_physical_address_checked mem p v = some (get_physical_address mem p v) := by
  have h1 : v >>> 8 = v / 256 := by rw [Nat.shiftRight_eq_div_pow]
  have h2 : v &&& 255 = v % 256 := Nat.and_pow_two_sub_one_eq_mod v 8
  have h3 : v / 256 < 256 := by omega
  have h5 : ∀ e : Nat, e <<< 8 ||| (v % 256) = e * 256 + v % 256 := fun e => by
    have := get_address_eq e (v % 256) (by omega)
    simpa [get_address, PAGE_SHIFT] using this
  have hA : read mem ((get_address 0 (PTP_OFFSET + p) : Nat) : Int) = some (mem ((64 + p : Nat) : Int)) := by
    rw [get_address_zero]
    exact read_in mem (64 + p) (by omega)
  have hB : read mem ((get_address (mem ((64 + p : Nat) : Int)) (v >>> 8) : Nat) : Int) =
      some (mem ((mem ((64 + p : Nat) : Int) * 256 + v / 256 : Nat) : Int)) := by
    rw [h1, get_address_eq _ _ h3]
    exact read_in mem _ (by omega)
  rw [get_physical_address_eq mem p v hv]
  unfold get_physical_address_checked
  dsimp only
  rw [hA, Option.some_bind, hB, Option.some_bind, h2, h5]
  by_cases he : mem ((mem ((64 + p : Nat) : Int) * 256 + v / 256 : Nat) : Int) = 0
  · rw [if_pos he, if_pos he]
  · rw [if_neg he, if_neg he]

/-! ## The claims -/

/-- C1 as stated fails: in the memory state whose bytes are all 200, the
directory byte of process 0 is 200 and the table entry `mem[200*256 + 0]` is
non-zero, yet `get_physical_address(0, 0)` does not return `200*256 + 0`: the
entry lies at index 51200, outside the 16384-byte array, and the access is
undefined. -/
theorem get_physical_address_out_of_bounds :
    ¬ ∀ (mem : Mem) (p v : Nat), p < 64 → v < 65536 →
      (get_physical_address_checked mem p v = some (-1) ↔
        mem ((mem ((64 + p : Nat) : Int) * 256 + (v >>> 8) : Nat) : Int) = 0) ∧
      (mem ((mem ((64 + p : Nat) : Int) * 256 + (v >>> 8) : Nat) : Int) ≠ 0 →
        get_physical_address_checked mem p v =
          some ((mem ((mem ((64 + p : Nat) : Int) * 256 + (v >>> 8) : Nat) : Int) * 256
            + v % 256 : Nat) : Int)) := by
  intro H
  have h := (H (fun _ => 200) 0 0 (by decide) (by decide)).2 (by decide)
  revert h
  decide

/-- C1 amended: for every memory state, every process id `p` in [0,64) and every
virtual address `v` in [0,65536) such that the directory byte `t = mem[64+p]` is
below 64, with `e` the table entry `mem[t*256 + (v >> 8)]`: every access of
`get_physical_address(p, v)` is inside the array, it returns the fault value -1
if and only if `e = 0`, and otherwise it returns `e*256 + (v mod 256)`, which is
`(e << 8) | (v & 255)`. -/
theorem get_physical_address_contract (mem : Mem) (p v t e : Nat) (hp : p < 64)
    (hv : v < 65536) (ht : t = mem ((64 + p : Nat) : Int)) (ht64 : t < 64)
    (he : e = mem ((t * 256 + (v >>> 8) : Nat) : Int)) :
    (get_physical_address_checked mem p v = some (-1) ↔ e = 0) ∧
    (e ≠ 0 → get_physical_address_checked mem p v = some ((e * 256 + v % 256 : Nat) : Int) ∧
      e * 256 + v % 256 = (e <<< 8) ||| (v &&& 255)) := by
  have h1 : v >>> 8 = v / 256 := by rw [Nat.shiftRight_eq_div_pow]
  have h2 : v &&& 255 = v % 256 := Nat.and_pow_two_sub_one_eq_mod v 8
  have h3 : e <<< 8 ||| (v % 256) = e * 256 + v % 256 := by
    have := get_address_eq e (v % 256) (by omega)
    simpa [get_address, PAGE_SHIFT] using this
  rw [get_physical_address_checked_eq mem p v hp hv (ht ▸ ht64),
    get_physical_address_eq mem p v hv, ← ht, ← h1, ← he, h2, h3]
  refine ⟨⟨fun h => ?_, fun h => by simp [h]⟩, fun h => by simp [h]⟩
  by_contra hne
  rw [if_neg hne] at h
  have := Option.some.inj h
  omega

theorem get_physical_address_contract_witness :
    (get_physical_address_checked (new_process (initialize_mem (fun _ => 255)) 0 2).1 0 300
        = some (-1) ↔ 3 = 0) ∧
    (3 ≠ 0 →
      get_physical_address_checked (new_process (initialize_mem (fun _ => 255)) 0 2).1 0 300 =
        some ((3 * 256 + 300 % 256 : Nat) : Int) ∧
      3 * 256 + 300 % 256 = (3 <<< 8) ||| (300 &&& 255)) :=
  get_physical_address_contract (new_process (initialize_mem (fun _ => 255)) 0 2).1 0 300 1 3
    (by decide) (by decide) (by decide) (by decide) (by decide)

/-- C2: lowest-index-first creation.  Let `fs` list, in ascending order, the
bitmap slots among 1..63 that are 0, and let it have at least `n+1` entries
`f0 < f1 < ... < fn < ...`.  After `new_process(p, n)` the directory entry
`mem[64+p]` is `f0`, table slot `i` of page `f0` is `f(i+1)` for every `i < n`,
the bitmap slots `f0..fn` are 1, and every other bitmap slot is unchanged. -/
theorem new_process_lowest_first (mem : Mem) (p n : Nat) (fs : List Nat) (hp : p < 64)
    (hsorted : fs.Pairwise (· < ·))
    (hfree : ∀ i : Nat, i ∈ fs ↔ 1 ≤ i ∧ i < 64 ∧ mem (i : Int) = 0)
    (hn : n + 1 ≤ fs.length) :
    (new_process mem p n).1 ((64 + p : Nat) : Int) = fs.getD 0 0 ∧
    (∀ i : Nat, i < n →
      (new_process mem p n).1 ((fs.getD 0 0 * 256 + i : Nat) : Int) = fs.getD (i + 1) 0) ∧
    (∀ j : Nat, j ≤ n → (new_process mem p n).1 ((fs.getD j 0 : Nat) : Int) = 1) ∧
    (∀ s : Nat, s < 64 → (∀ j : Nat, j ≤ n → s ≠ fs.getD j 0) →
      (new_process mem p n).1 (s : Int) = mem (s : Int)) := by
  have hfs := free_slots_unique mem fs hsorted hfree
  cases fs with
  | nil => simp at hn
  | cons f0 r =>
    have hnr : n ≤ r.length := by simpa using hn
    have hbound : ∀ g ∈ f0 :: r, 1 ≤ g ∧ g < 64 := fun g hg =>
      ⟨((hfree g).1 hg).1, ((hfree g).1 hg).2.1⟩
    have hf0 := hbound f0 (List.mem_cons_self _ _)
    have htake : ∀ g ∈ r.take n, g < 256 := fun g hg => by
      have := hbound g (List.mem_cons_of_mem _ (List.mem_of_mem_take hg))
      omega
    have hnd : (r.take n).Nodup :=
      ((List.pairwise_cons.1 hsorted).2.nodup).sublist (List.take_sublist _ _)
    have hget : ∀ i : Nat, i < n → (r.take n)[i]? = some (r.getD i 0) := fun i hi => by
      rw [List.getElem?_take_of_lt hi, List.getD_eq_getElem?_getD,
        List.getElem?_eq_getElem (by omega)]
      rfl
    rw [new_process_cons mem p n f0 r hp hfs.symm]
    simp only [List.getD_cons_zero, List.getD_cons_succ]
    refine ⟨?_, fun i hi => ?_, fun j hj => ?_, fun s hs hne => ?_⟩
    · rw [fill_frame _ _ _ _ _ (fun g hg e => by
          have := htake g hg
          have : 64 + p = g := by exact_mod_cast e
          have := hbound g (List.mem_cons_of_mem _ (List.mem_of_mem_take hg))
          omega)
        (fun i _ e => by
          have : 64 + p = f0 * 256 + 0 + i := by exact_mod_cast e
          omega)]
      rw [write_same]; omega
    · have := fill_table f0 (r.take n) 0 (write (write mem f0 1) ((64 + p : Nat) : Int) f0)
        i (r.getD i 0) hf0.1 htake (hget i hi)
      simpa using this
    · cases j with
      | zero =>
        simp only [List.getD_cons_zero]
        rw [fill_frame _ _ _ _ _ (fun g hg e => by
            have : f0 = g := by exact_mod_cast e
            have h1 := (List.pairwise_cons.1 hsorted).1 g (List.mem_of_mem_take hg)
            omega)
          (fun i _ e => by
            have : f0 = f0 * 256 + 0 + i := by exact_mod_cast e
            omega)]
        rw [write_other _ _ _ _ (by push_cast; omega), write_same]; rfl
      | succ j =>
        simp only [List.getD_cons_succ]
        apply fill_bitmap _ _ _ _ _ hf0.1 htake hnd
        have := hget j (by omega)
        exact List.getElem?_mem this
    · have hs0 : s ≠ f0 := by simpa using hne 0 (Nat.zero_le _)
      rw [fill_frame _ _ _ _ _ (fun g hg e => by
          have : s = g := by exact_mod_cast e
          subst this
          obtain ⟨j, hj, hjg⟩ := List.getElem_of_mem hg
          have hj2 : j < n := by
            have := List.length_take_le n r
            omega
          have h1 := hget j hj2
          rw [List.getElem?_eq_getElem hj, hjg] at h1
          have h2 := hne (j + 1) (by omega)
          simp only [List.getD_cons_succ] at h2
          apply h2
          exact Option.some.inj h1)
        (fun i _ e => by
          have : s = f0 * 256 + 0 + i := by exact_mod_cast e
          omega)]
      rw [write_other _ _ _ _ (by push_cast; omega), write_other _ _ _ _ (by exact_mod_cast hs0)]

theorem new_process_lowest_first_witness :
    (new_process (initialize_mem (fun _ => 255)) 0 2).1 64 = 1 ∧
    (new_process (initialize_mem (fun _ => 255)) 0 2).1 256 = 2 ∧
    (new_process (initialize_mem (fun _ => 255)) 0 2).1 257 = 3 ∧
    (new_process (initialize_mem (fun _ => 255)) 0 2).1 1 = 1 ∧
    (new_process (initialize_mem (fun _ => 255)) 0 2).1 2 = 1 ∧
    (new_process (initialize_mem (fun _ => 255)) 0 2).1 3 = 1 ∧
    (new_process (initialize_mem (fun _ => 255)) 0 2).1 4
      = initialize_mem (fun _ => 255) 4 := by
  have H := new_process_lowest_first (initialize_mem (fun _ => 255)) 0 2
    ((List.range 63).map (· + 1)) (by decide)
    (by
      rw [List.pairwise_map]
      exact (List.pairwise_lt_range 63).imp (fun h => Nat.add_lt_add_right h 1))
    (fun i => by
      rw [initialize_mem_apply]
      simp only [List.mem_map, List.mem_range]
      constructor
      · rintro ⟨a, ha, rfl⟩
        refine ⟨by omega, by omega, ?_⟩
        rw [if_neg (by omega), if_pos (by omega)]
      · rintro ⟨h1, h2, -⟩
        exact ⟨i - 1, by omega, by omega⟩)
    (by decide)
  exact ⟨H.1, H.2.1 0 (by decide), H.2.1 1 (by decide), H.2.2.1 0 (by decide),
    H.2.2.1 1 (by decide), H.2.2.1 2 (by decide),
    H.2.2.2 4 (by decide) (fun j hj => by
      have : j = 0 ∨ j = 1 ∨ j = 2 := by omega
      rcases this with rfl | rfl | rfl <;> decide)⟩

/-- C3: store/load round trip.  In every state reached from `initialize_mem` by
`new_process` calls on pairwise distinct ids in [0,64), none out of memory,
interleaved with stores by created processes inside their data pages, for every
created process `p` with `n` data pages, every `v < n*256` and every `x`: after
`store_value_at_vir_addr(p, v, x)`, `get_value_at_vir_addr(p, v)` prints no page
fault and exactly one load line, whose value is `x mod 256`; that is `x` itself
when `x` is in [0,255]. -/
theorem store_load_round_trip (mem : Mem) (L : List (Nat × Nat)) (p n v : Nat) (x : Int)
    (h : CreatedStored mem L) (hp : (p, n) ∈ L) (hv : v < n * 256) :
    get_value_at_vir_addr (store_value_at_vir_addr mem p v x).1 p v =
      [Output.load_line p v (get_physical_address mem p v) (x % 256)] ∧
    (0 ≤ x → x ≤ 255 →
      get_value_at_vir_addr (store_value_at_vir_addr mem p v x).1 p v =
        [Output.load_line p v (get_physical_address mem p v) x]) := by
  have hl := createdStored_layout mem L h
  have hl2 := layout_store mem L p n v x hl hp hv
  have ha := gpa_mapped mem L hl (p, n) hp v hv
  have ha2 := gpa_mapped _ L hl2 (p, n) hp v hv
  simp only at ha ha2
  have key : get_value_at_vir_addr (store_value_at_vir_addr mem p v x).1 p v =
      [Output.load_line p v (get_physical_address mem p v) (x % 256)] := by
    unfold get_value_at_vir_addr
    simp only [ha2]
    rw [if_neg (by omega)]
    simp only [store_value_at_vir_addr, ha, write_same, List.nil_append]
    congr 2
    omega
  refine ⟨key, fun h1 h2 => ?_⟩
  rw [key, Int.emod_eq_of_lt h1 (by omega)]

theorem store_load_round_trip_witness :
    get_value_at_vir_addr
      (store_value_at_vir_addr (new_process (initialize_mem (fun _ => 0)) 0 2).1 0 0 42).1 0 0 =
      [Output.load_line 0 0 512 42] :=
  (store_load_round_trip (new_process (initialize_mem (fun _ => 0)) 0 2).1 [(0, 2)] 0 2 0 42
    (CreatedStored.create _ [] 0 2 (CreatedStored.init _) (by decide) (by simp) (by decide))
    (by simp) (by decide)).1

/-- C4: fault correctness for a created process.  In every state reached from
`initialize_mem` by `new_process` calls on pairwise distinct ids in [0,64), none
out of memory, for a created process `p` with `n` data pages and a virtual
address `v` with `n ≤ (v >> 8) < 256`: `get_physical_address(p, v)` returns the
fault value -1; `get_value_at_vir_addr(p, v)` prints the page-fault line;
`store_value_at_vir_addr(p, v, x)` prints the page-fault line and leaves every
byte of the 16384-byte array unchanged. -/
theorem fault_on_unmapped_page (mem : Mem) (L : List (Nat × Nat)) (p n v : Nat) (x : Int)
    (h : Created mem L) (hp : (p, n) ∈ L) (hv1 : n ≤ v >>> 8) (hv2 : v >>> 8 < 256) :
    get_physical_address mem p v = -1 ∧
    Output.page_fault p v ∈ get_value_at_vir_addr mem p v ∧
    Output.page_fault p v ∈ (store_value_at_vir_addr mem p v x).2 ∧
    ∀ y : Int, 0 ≤ y → y < 16384 → (store_value_at_vir_addr mem p v x).1 y = mem y := by
  have hf := gpa_unmapped mem L (created_layout mem L h) (p, n) hp v hv1 hv2
  simp only at hf
  refine ⟨hf, ?_, ?_, fun y h0 _ => ?_⟩
  · rw [load_fault_eq mem p v hf]
    exact List.mem_cons_self _ _
  · rw [store_fault_eq mem p v x hf]
    exact List.mem_cons_self _ _
  · rw [store_fault_eq mem p v x hf]
    exact write_other _ _ _ _ (by omega)

theorem fault_on_unmapped_page_witness :
    get_physical_address (new_process (initialize_mem (fun _ => 0)) 0 2).1 0 512 = -1 ∧
    Output.page_fault 0 512 ∈
      get_value_at_vir_addr (new_process (initialize_mem (fun _ => 0)) 0 2).1 0 512 :=
  ⟨(fault_on_unmapped_page (new_process (initialize_mem (fun _ => 0)) 0 2).1 [(0, 2)] 0 2 512 7
      (Created.create _ [] 0 2 (Created.init _) (by decide) (by simp) (by decide))
      (by simp) (by decide) (by decide)).1,
    (fault_on_unmapped_page (new_process (initialize_mem (fun _ => 0)) 0 2).1 [(0, 2)] 0 2 512 7
      (Created.create _ [] 0 2 (Created.init _) (by decide) (by simp) (by decide))
      (by simp) (by decide) (by decide)).2.1⟩

/-- C5: isolation.  In every state reached from `initialize_mem` by `new_process`
calls on pairwise distinct ids in [0,64), none out of memory, for two distinct
created processes `p` and `q` with `n` and `m` data pages and virtual addresses
`v < n*256`, `w < m*256`: both translations succeed, they lie in different
physical pages, and neither lies in page 0 or in the page-table page of any
created process. -/
theorem isolation (mem : Mem) (L : List (Nat × Nat)) (p n q m v w : Nat)
    (h : Created mem L) (hp : (p, n) ∈ L) (hq : (q, m) ∈ L) (hpq : p ≠ q)
    (hv : v < n * 256) (hw : w < m * 256) :
    get_physical_address mem p v ≠ -1 ∧ get_physical_address mem q w ≠ -1 ∧
    get_physical_address mem p v / 256 ≠ get_physical_address mem q w / 256 ∧
    get_physical_address mem p v / 256 ≠ 0 ∧ get_physical_address mem q w / 256 ≠ 0 ∧
    ∀ r k : Nat, (r, k) ∈ L →
      get_physical_address mem p v / 256 ≠ (get_page_table mem r : Int) ∧
      get_physical_address mem q w / 256 ≠ (get_page_table mem r : Int) := by
  have hl := created_layout mem L h
  have hap := gpa_mapped mem L hl (p, n) hp v hv
  have haq := gpa_mapped mem L hl (q, m) hq w hw
  have hd := table_of_disjoint L hl.distinct (p, n) (q, m) hp hq hpq
  simp only at hap haq hd
  rw [hap, haq]
  refine ⟨by omega, by omega, by omega, by omega, by omega, fun r k hr => ?_⟩
  rw [get_page_table_eq, hl.dir (r, k) hr]
  simp only
  have hbr := table_of_bounds L hl.distinct (r, k) hr
  simp only at hbr
  constructor
  · by_cases hrp : r = p
    · subst hrp; omega
    · have := table_of_disjoint L hl.distinct (r, k) (p, n) hr hp hrp
      simp only at this
      omega
  · by_cases hrq : r = q
    · subst hrq; omega
    · have := table_of_disjoint L hl.distinct (r, k) (q, m) hr hq hrq
      simp only at this
      omega

theorem isolation_witness :
    get_physical_address
      (new_process (new_process (initialize_mem (fun _ => 0)) 1 2).1 2 2).1 1 0 = 512 ∧
    get_physical_address
      (new_process (new_process (initialize_mem (fun _ => 0)) 1 2).1 2 2).1 2 0 = 1280 ∧
    get_physical_address
      (new_process (new_process (initialize_mem (fun _ => 0)) 1 2).1 2 2).1 1 0 / 256 ≠
    get_physical_address
      (new_process (new_process (initialize_mem (fun _ => 0)) 1 2).1 2 2).1 2 0 / 256 :=
  ⟨by decide, by decide,
    (isolation (new_process (new_process (initialize_mem (fun _ => 0)) 1 2).1 2 2).1
      [(2, 2), (1, 2)] 1 2 2 2 0 0
      (Created.create _ _ 2 2 (Created.create _ [] 1 2 (Created.init _) (by decide) (by simp)
        (by decide)) (by decide) (by simp) (by decide))
      (by simp) (by simp) (by decide) (by decide) (by decide)).2.2.1⟩

/-- C6, the code at a failing input: after `initialize_mem`, `new_process(0, 1)`
and `new_process(1, 2)`, six bitmap slots are non-zero, which is
`1 + (1 + 1) + (1 + 2)`.  After `free_process(1)` only process 0, created with one
data page, is live, and four bitmap slots are non-zero, not `1 + (1 + 1) = 3`. -/
theorem free_process_breaks_conservation (mem0 : Mem) :
    allocated_pages (new_process (new_process (initialize_mem mem0) 0 1).1 1 2).1 = 6 ∧
    allocated_pages
      (free_process (new_process (new_process (initialize_mem mem0) 0 1).1 1 2).1 1) = 4 := by
  have hc : Created (new_process (new_process (initialize_mem mem0) 0 1).1 1 2).1
      [(1, 2), (0, 1)] :=
    created_of_room _ _ 1 2 (created_of_room _ _ 0 1 (Created.init mem0) (by decide) (by simp)
      (by decide)) (by decide) (by simp) (by decide)
  have hl := created_layout _ _ hc
  have hfp := free_process_layout _ _ hl (1, 2) (0, 1) (by simp) (by simp) (by decide)
  have hu : pages_used [(1, 2), (0, 1)] = 5 := by decide
  have ht : table_of [(1, 2), (0, 1)] 1 = 3 := by decide
  have hbit : ∀ i : Nat, i < 64 →
      (new_process (new_process (initialize_mem mem0) 0 1).1 1 2).1 (i : Int) =
        if i ≤ 5 then 1 else 0 := fun i hi => by
    by_cases h5 : i ≤ 5
    · rw [if_pos h5]; exact hl.bitmap_used i (by omega)
    · rw [if_neg h5]; exact hl.bitmap_free i (by omega) hi
  constructor
  · unfold allocated_pages
    rw [List.filter_congr (q := fun i : Nat => decide (i ≤ 5)) (fun i hi => by
      rw [hbit i (List.mem_range.1 hi)]
      by_cases h5 : i ≤ 5 <;> simp [h5])]
    decide
  · unfold allocated_pages
    rw [List.filter_congr (q := fun i : Nat => decide (i ≤ 5 ∧ i ≠ 2 ∧ i ≠ 3)) (fun i hi => by
      have h64 := List.mem_range.1 hi
      rw [hfp i, hbit i h64, ht]
      simp only [decide_eq_decide]
      split_ifs <;> simp <;> omega)]
    decide

/-- C7, the code at a failing input: after `initialize_mem`, `new_process(0, 1)`
and `new_process(1, 1)`, process 1 has table page 3 and data page 4, both marked
in the bitmap, and process 0 has table page 1 and data page 2.  After
`free_process(1)` the bitmap entry of page 4, the data page of process 1, is
still 1, while the bitmap entry of page 2, the data page of process 0, is 0. -/
theorem free_process_releases_wrong_pages (mem0 : Mem) :
    get_page_table (new_process (new_process (initialize_mem mem0) 0 1).1 1 1).1 1 = 3 ∧
    (new_process (new_process (initialize_mem mem0) 0 1).1 1 1).1 768 = 4 ∧
    get_page_table (new_process (new_process (initialize_mem mem0) 0 1).1 1 1).1 0 = 1 ∧
    (new_process (new_process (initialize_mem mem0) 0 1).1 1 1).1 256 = 2 ∧
    (new_process (new_process (initialize_mem mem0) 0 1).1 1 1).1 4 = 1 ∧
    (new_process (new_process (initialize_mem mem0) 0 1).1 1 1).1 2 = 1 ∧
    free_process (new_process (new_process (initialize_mem mem0) 0 1).1 1 1).1 1 4 = 1 ∧
    free_process (new_process (new_process (initialize_mem mem0) 0 1).1 1 1).1 1 2 = 0 := by
  have hc : Created (new_process (new_process (initialize_mem mem0) 0 1).1 1 1).1
      [(1, 1), (0, 1)] :=
    created_of_room _ _ 1 1 (created_of_room _ _ 0 1 (Created.init mem0) (by decide) (by simp)
      (by decide)) (by decide) (by simp) (by decide)
  have hl := created_layout _ _ hc
  have hfp := free_process_layout _ _ hl (1, 1) (0, 1) (by simp) (by simp) (by decide)
  have h4 := hl.bitmap_used 4 (by decide)
  have h2 := hl.bitmap_used 2 (by decide)
  refine ⟨?_, hl.table_lo (1, 1) (by simp) 0 (by decide), ?_,
    hl.table_lo (0, 1) (by simp) 0 (by decide), h4, h2, ?_, ?_⟩
  · rw [get_page_table_eq]; exact hl.dir (1, 1) (by simp)
  · rw [get_page_table_eq]; exact hl.dir (0, 1) (by simp)
  · rw [hfp 4, if_neg (by decide), if_neg (by decide)]; exact h4
  · rw [hfp 2, if_neg (by decide), if_pos (by decide)]

/-- C8, the code at failing inputs.  First input: `initialize_mem`,
`new_process(0, 1)`, `new_process(1, 1)`, `store_value_at_vir_addr(1, 0, 42)`, which
writes 42 at address 1024 in page 4, the data page of process 1, then
`free_process(1)`: byte 1024 still holds 42 and byte 768, slot 0 of the table
page 3 of process 1, still holds 4.  Second input: `initialize_mem`,
`new_process(0, 1)`, `free_process(0)`: the bitmap entry of page 1, the table
page of process 0, is 0, yet byte 256, slot 0 of that page, still holds 2. -/
theorem free_process_leaves_contents (mem0 : Mem) :
    get_physical_address (new_process (new_process (initialize_mem mem0) 0 1).1 1 1).1 1 0
      = 1024 ∧
    free_process (store_value_at_vir_addr
      (new_process (new_process (initialize_mem mem0) 0 1).1 1 1).1 1 0 42).1 1 1024 = 42 ∧
    free_process (store_value_at_vir_addr
      (new_process (new_process (initialize_mem mem0) 0 1).1 1 1).1 1 0 42).1 1 768 = 4 ∧
    free_process (new_process (initialize_mem mem0) 0 1).1 0 1 = 0 ∧
    free_process (new_process (initialize_mem mem0) 0 1).1 0 256 = 2 := by
  have hc : Created (new_process (new_process (initialize_mem mem0) 0 1).1 1 1).1
      [(1, 1), (0, 1)] :=
    created_of_room _ _ 1 1 (created_of_room _ _ 0 1 (Created.init mem0) (by decide) (by simp)
      (by decide)) (by decide) (by simp) (by decide)
  have hl := created_layout _ _ hc
  have ha := gpa_mapped _ _ hl (1, 1) (by simp) 0 (by decide)
  have ha1 : get_physical_address
      (new_process (new_process (initialize_mem mem0) 0 1).1 1 1).1 1 0 = 1024 := ha
  have hl2 := layout_store _ _ 1 1 0 42 hl (by simp) (by decide)
  have hfp := free_process_layout _ _ hl2 (1, 1) (0, 1) (by simp) (by simp) (by decide)
  have hc0 : Created (new_process (initialize_mem mem0) 0 1).1 [(0, 1)] :=
    created_of_room _ _ 0 1 (Created.init mem0) (by decide) (by simp) (by decide)
  have hl0 := created_layout _ _ hc0
  have hfp0 := free_process_layout _ _ hl0 (0, 1) (0, 1) (by simp) (by simp) (by decide)
  refine ⟨ha1, ?_, ?_, ?_, ?_⟩
  · rw [hfp 1024, if_neg (by decide), if_neg (by decide)]
    simp only [store_value_at_vir_addr, ha1]
    exact write_same _ _ _
  · rw [hfp 768, if_neg (by decide), if_neg (by decide)]
    exact hl2.table_lo (1, 1) (by simp) 0 (by decide)
  · rw [hfp0 1, if_pos (by decide)]
  · rw [hfp0 256, if_neg (by decide), if_neg (by decide)]
    exact hl0.table_lo (0, 1) (by simp) 0 (by decide)

/-- C9: after `initialize_mem`, whatever the memory held before, bitmap byte 0 is
1, bitmap bytes 1..63 are 0, every directory byte `mem[64..127]` is 0, and every
byte of the 16384-byte memory other than `mem[0]` is 0. -/
theorem initialize_mem_spec (mem0 : Mem) :
    initialize_mem mem0 0 = 1 ∧
    (∀ i : Nat, 1 ≤ i → i < 64 → initialize_mem mem0 (i : Int) = 0) ∧
    (∀ p : Nat, p < 64 → initialize_mem mem0 ((64 + p : Nat) : Int) = 0) ∧
    (∀ i : Int, 0 < i → i < 16384 → initialize_mem mem0 i = 0) := by
  have key : ∀ i : Int, 0 < i → i < 16384 → initialize_mem mem0 i = 0 := by
    intro i h1 h2
    unfold initialize_mem
    simp only [get_address_zero]
    rw [write_other _ _ _ _ (by simpa using h1.ne')]
    simp only [memset, MEM_SIZE]
    rw [if_pos ⟨h1.le, by simpa using h2⟩]
    rfl
  refine ⟨?_, fun i h1 h2 => key _ (by omega) (by omega),
    fun p hp => key _ (by push_cast; omega) (by push_cast; omega), key⟩
  unfold initialize_mem
  simp only [get_address_zero]
  exact write_same _ _ _

/-- C10: when every bitmap slot 1..63 is non-zero, `new_process(p, n)` prints the
out-of-memory line for the page table and nothing else, and leaves every cell of
memory as it was. -/
theorem new_process_oom_page_table (mem : Mem) (p n : Nat)
    (hfull : ∀ i : Nat, 1 ≤ i → i < 64 → mem (i : Int) ≠ 0) :
    new_process mem p n = (mem, [Output.oom_page_table p]) := by
  apply new_process_nil
  apply List.eq_nil_iff_forall_not_mem.2
  intro a ha
  have := (mem_free_from mem 63 1 a).1 ha
  exact hfull a this.1 (by omega) this.2.2

theorem new_process_oom_page_table_witness :
    new_process (fun _ => 1) 5 3 = ((fun _ => 1), [Output.oom_page_table 5]) :=
  new_process_oom_page_table (fun _ => 1) 5 3 (fun _ _ _ => Nat.one_ne_zero)

/-- C11: partial allocation on data-page out-of-memory.  Let `fs` list, in
ascending order, the bitmap slots among 1..63 that are 0, and let it have `k`
entries with `1 ≤ k ≤ n`.  Then `new_process(p, n)` prints the out-of-memory line
for a data page exactly once and nothing else; all `k` slots of `fs` are 1
afterwards; the directory entry of `p` is the lowest of them; table slots
`0..k-2` of that page hold the other `k-1` slots in ascending order; and the
table slots from `k-1` on hold what they held before. -/
theorem new_process_partial_allocation (mem : Mem) (p n k : Nat) (fs : List Nat) (hp : p < 64)
    (hsorted : fs.Pairwise (· < ·))
    (hfree : ∀ i : Nat, i ∈ fs ↔ 1 ≤ i ∧ i < 64 ∧ mem (i : Int) = 0)
    (hk : fs.length = k) (hk1 : 1 ≤ k) (hkn : k ≤ n) :
    (new_process mem p n).2 = [Output.oom_data_page p] ∧
    (∀ g ∈ fs, (new_process mem p n).1 (g : Int) = 1) ∧
    (new_process mem p n).1 ((64 + p : Nat) : Int) = fs.getD 0 0 ∧
    (∀ i : Nat, i + 1 < k →
      (new_process mem p n).1 ((fs.getD 0 0 * 256 + i : Nat) : Int) = fs.getD (i + 1) 0) ∧
    (∀ i : Nat, k - 1 ≤ i → i < 256 →
      (new_process mem p n).1 ((fs.getD 0 0 * 256 + i : Nat) : Int) =
        mem ((fs.getD 0 0 * 256 + i : Nat) : Int)) := by
  have hfs := free_slots_unique mem fs hsorted hfree
  cases fs with
  | nil => simp at hk; omega
  | cons f0 r =>
    have hlen : r.length = k - 1 := by simp at hk; omega
    have htk : r.take n = r := List.take_of_length_le (by omega)
    have hbound : ∀ g ∈ f0 :: r, 1 ≤ g ∧ g < 64 := fun g hg =>
      ⟨((hfree g).1 hg).1, ((hfree g).1 hg).2.1⟩
    have hf0 := hbound f0 (List.mem_cons_self _ _)
    obtain ⟨h1, h2, h3, h4, h5, h6⟩ := new_process_spec mem p n f0 r hp hfs.symm
    rw [htk] at h4 h5 h6
    simp only [List.getD_cons_zero, List.getD_cons_succ]
    refine ⟨?_, fun g hg => ?_, h2, fun i hi => ?_, fun i hi1 hi2 => ?_⟩
    · rw [h1, if_neg (by omega)]
    · rcases List.mem_cons.1 hg with rfl | hg
      · exact h3
      · exact h4 g hg
    · apply h5
      rw [List.getD_eq_getElem?_getD, List.getElem?_eq_getElem (by omega)]
      rfl
    · apply h6
      · push_cast; omega
      · intro g hg
        have := hbound g (List.mem_cons_of_mem _ hg)
        push_cast; omega
      · push_cast; omega
      · intro j hj
        push_cast; omega

theorem new_process_partial_allocation_witness :
    (new_process (fun x => if x = 62 ∨ x = 63 then 0 else 1) 3 5).2 = [Output.oom_data_page 3] ∧
    (new_process (fun x => if x = 62 ∨ x = 63 then 0 else 1) 3 5).1 67 = 62 ∧
    (new_process (fun x => if x = 62 ∨ x = 63 then 0 else 1) 3 5).1 (62 * 256) = 63 ∧
    (new_process (fun x => if x = 62 ∨ x = 63 then 0 else 1) 3 5).1 (62 * 256 + 1) = 1 := by
  have H := new_process_partial_allocation (fun x => if x = 62 ∨ x = 63 then 0 else 1) 3 5 2
    [62, 63] (by decide) (by decide)
    (fun i => by
      simp only [List.mem_cons, List.mem_singleton, List.not_mem_nil, or_false]
      constructor
      · rintro (rfl | rfl) <;> decide
      · rintro ⟨h1, h2, h3⟩
        by_contra hc
        rw [if_neg (by omega)] at h3
        exact absurd h3 (by decide))
    rfl (by decide) (by decide)
  exact ⟨H.1, H.2.2.1, H.2.2.2.1 0 (by decide), H.2.2.2.2 1 (by decide) (by decide)⟩

/-- C12, the code at a failing input: after `initialize_mem` and
`new_process(0, 1)`, process 1 has directory entry 0, `mem[0]` is 1 and `mem[2]`,
the bitmap entry of the data page of process 0, is 1.  After `free_process(1)`
both `mem[0]` and `mem[2]` are 0. -/
theorem free_process_without_table_changes_memory (mem0 : Mem) :
    get_page_table (new_process (initialize_mem mem0) 0 1).1 1 = 0 ∧
    (new_process (initialize_mem mem0) 0 1).1 0 = 1 ∧
    (new_process (initialize_mem mem0) 0 1).1 2 = 1 ∧
    free_process (new_process (initialize_mem mem0) 0 1).1 1 0 = 0 ∧
    free_process (new_process (initialize_mem mem0) 0 1).1 1 2 = 0 := by
  have hc : Created (new_process (initialize_mem mem0) 0 1).1 [(0, 1)] :=
    created_of_room _ _ 0 1 (Created.init mem0) (by decide) (by simp) (by decide)
  have hl := created_layout _ _ hc
  have hfp := free_process_layout_none _ _ hl 1 (0, 1) (by decide) (by simp) (by simp)
    (by decide)
  refine ⟨?_, hl.bitmap_used 0 (by decide), hl.bitmap_used 2 (by decide), ?_, ?_⟩
  · rw [get_page_table_eq]; exact hl.dir_none 1 (by decide) (by simp)
  · rw [hfp 0, if_pos rfl]
  · rw [hfp 2, if_neg (by decide), if_pos (by decide)]

/-- C13, the code at a failing input: after `initialize_mem` and
`new_process(0, 1)`, process 1 was never created, yet
`get_physical_address(1, 0)` is 256, not -1: the directory entry 0 makes page 0
the table, and its slot 0 is `mem[0] = 1`.  `store_value_at_vir_addr(1, 0, 7)`
prints a store line and no page fault, and writes 7 at address 256, slot 0 of the
page table of process 0, which held 2; so virtual address 0 of process 0, which
translated to 512, translates to 1792 afterwards. -/
theorem access_without_table_not_rejected (mem0 : Mem) :
    get_physical_address (new_process (initialize_mem mem0) 0 1).1 1 0 = 256 ∧
    store_value_at_vir_addr (new_process (initialize_mem mem0) 0 1).1 1 0 7 =
      (write (new_process (initialize_mem mem0) 0 1).1 256 7, [Output.store_line 1 0 256 7]) ∧
    get_value_at_vir_addr (new_process (initialize_mem mem0) 0 1).1 1 0 =
      [Output.load_line 1 0 256 2] ∧
    get_physical_address (new_process (initialize_mem mem0) 0 1).1 0 0 = 512 ∧
    get_physical_address
      (store_value_at_vir_addr (new_process (initialize_mem mem0) 0 1).1 1 0 7).1 0 0 = 1792 := by
  have hc : Created (new_process (initialize_mem mem0) 0 1).1 [(0, 1)] :=
    created_of_room _ _ 0 1 (Created.init mem0) (by decide) (by simp) (by decide)
  have hl := created_layout _ _ hc
  have h64 : (new_process (initialize_mem mem0) 0 1).1 ((64 + 0 : Nat) : Int) = 1 :=
    hl.dir (0, 1) (by simp)
  have h65 : (new_process (initialize_mem mem0) 0 1).1 ((64 + 1 : Nat) : Int) = 0 :=
    hl.dir_none 1 (by decide) (by simp)
  have h0 : (new_process (initialize_mem mem0) 0 1).1 ((0 : Nat) : Int) = 1 :=
    hl.bitmap_used 0 (by decide)
  have h256 : (new_process (initialize_mem mem0) 0 1).1 ((1 * 256 + 0 : Nat) : Int) = 2 :=
    hl.table_lo (0, 1) (by simp) 0 (by decide)
  have ha : get_physical_address (new_process (initialize_mem mem0) 0 1).1 1 0 = 256 := by
    exact gpa_of_entries _ 1 0 0 1 (by decide) h65 h0
  have hb : get_physical_address (new_process (initialize_mem mem0) 0 1).1 0 0 = 512 :=
    gpa_mapped _ _ hl (0, 1) (by simp) 0 (by decide)
  have hst := store_ok_eq (new_process (initialize_mem mem0) 0 1).1 1 0 7 256 ha (by decide)
  have hw64 : write (new_process (initialize_mem mem0) 0 1).1 256 7 ((64 + 0 : Nat) : Int) = 1 := by
    rw [write_other _ _ _ _ (by decide)]; exact h64
  have hw256 : write (new_process (initialize_mem mem0) 0 1).1 256 7
      ((1 * 256 + 0 / 256 : Nat) : Int) = 7 := write_same _ _ _
  refine ⟨ha, hst, ?_, hb, ?_⟩
  · rw [load_ok_eq _ 1 0 256 ha (by decide)]
    have : (new_process (initialize_mem mem0) 0 1).1 256 = 2 := h256
    rw [this]
    rfl
  · rw [hst]
    show get_physical_address (write (new_process (initialize_mem mem0) 0 1).1 256 7) 0 0 = 1792
    exact gpa_of_entries _ 0 0 1 7 (by decide) hw64 hw256

/-- C14 as stated fails: after `initialize_mem` and `new_process(0, 1)`,
`free_process(0)` leaves the directory entry of process 0 at 1. -/
theorem directory_entry_not_cleared :
    ¬ ∀ (mem : Mem) (L : List (Nat × Nat)) (p n : Nat), CreatedStored mem L → (p, n) ∈ L →
      get_page_table (free_process mem p) p = 0 := by
  intro H
  have hc : Created (new_process (initialize_mem (fun _ => 0)) 0 1).1 [(0, 1)] :=
    created_of_room _ _ 0 1 (Created.init _) (by decide) (by simp) (by decide)
  have h1 := H _ _ 0 1 (created_stored _ _ hc) (by simp)
  have h2 := free_process_dir _ _ (created_layout _ _ hc) (0, 1) (by simp)
  simp only at h2
  omega

/-- C14 amended: in every state reached from `initialize_mem` by `new_process`
calls on pairwise distinct ids in [0,64), none out of memory, and stores by
created processes inside their data pages, for every created process `p`: after
`free_process(p)` the directory entry `get_page_table(p) = mem[64+p]` is what it
was before the call, a page number in 1..63, and the bitmap entry of that page
is 0. -/
theorem free_process_keeps_directory_entry (mem : Mem) (L : List (Nat × Nat)) (p n : Nat)
    (h : CreatedStored mem L) (hp : (p, n) ∈ L) :
    get_page_table (free_process mem p) p = get_page_table mem p ∧
    1 ≤ get_page_table mem p ∧ get_page_table mem p ≤ 63 ∧
    free_process mem p (get_page_table mem p : Int) = 0 :=
  free_process_dir mem L (createdStored_layout mem L h) (p, n) hp

theorem free_process_keeps_directory_entry_witness :
    get_page_table (free_process (new_process (initialize_mem (fun _ => 0)) 0 1).1 0) 0 =
      get_page_table (new_process (initialize_mem (fun _ => 0)) 0 1).1 0 ∧
    1 ≤ get_page_table (new_process (initialize_mem (fun _ => 0)) 0 1).1 0 :=
  ⟨(free_process_keeps_directory_entry _ [(0, 1)] 0 1
      (CreatedStored.create _ [] 0 1 (CreatedStored.init _) (by decide) (by simp) (by decide))
      (by simp)).1,
    (free_process_keeps_directory_entry _ [(0, 1)] 0 1
      (CreatedStored.create _ [] 0 1 (CreatedStored.init _) (by decide) (by simp) (by decide))
      (by simp)).2.1⟩

/-- C15: page 0 is reserved.  In every state reached from `initialize_mem` by
`new_process` calls on ids in [0,64) and `free_process` calls on ids that have
been created, `mem[0]` is 1; and a `new_process` call made in such a state, if it
does not stop with the out-of-memory line for the page table, leaves a directory
entry in 1..63, and every cell outside the bitmap whose value it changes, a
directory entry or a table slot, gets a value in 1..63. -/
theorem page_zero_reserved (mem : Mem) (C : List Nat) (h : Run mem C) :
    mem 0 = 1 ∧
    ∀ p n : Nat, p < 64 →
      ((new_process mem p n).2 ≠ [Output.oom_page_table p] →
        1 ≤ (new_process mem p n).1 ((64 + p : Nat) : Int) ∧
        (new_process mem p n).1 ((64 + p : Nat) : Int) ≤ 63) ∧
      (∀ x : Int, 64 ≤ x → (new_process mem p n).1 x ≠ mem x →
        1 ≤ (new_process mem p n).1 x ∧ (new_process mem p n).1 x ≤ 63) := by
  refine ⟨(run_invariant mem C h).2.1, fun p n hp => ⟨new_process_dir mem p n hp, ?_⟩⟩
  intro x hx hne
  rcases new_process_effect mem p n hp x with h | h | h | ⟨i, h⟩
  · exact absurd h hne
  · omega
  · omega
  · omega

theorem page_zero_reserved_witness :
    free_process (free_process (new_process (initialize_mem (fun _ => 0)) 0 1).1 0) 0 0 = 1 :=
  (page_zero_reserved _ _
    (Run.free _ _ 0
      (Run.free _ _ 0 (Run.create _ [] 0 1 (Run.init (fun _ => 0)) (by decide)) (by decide))
      (by decide))).1

/-- C16: stores stay inside the writer's own data pages.  In every state reached
from `initialize_mem` by `new_process` calls on pairwise distinct ids in [0,64),
none out of memory, and earlier such stores, for a created process `p` with `n`
data pages, `v < n*256` and any `x`: `store_value_at_vir_addr(p, v, x)` prints one
store line and no page fault; the address `get_physical_address(p, v)` lies in the
page named by one of the table slots `0..n-1` of `p`; that cell holds `x mod 256`
afterwards and every other cell of memory is unchanged; in particular the bitmap,
the directory, every page-table page and every byte of the data pages of the
other processes are unchanged. -/
theorem store_frame (mem : Mem) (L : List (Nat × Nat)) (p n v : Nat) (x : Int)
    (h : CreatedStored mem L) (hp : (p, n) ∈ L) (hv : v < n * 256) :
    (store_value_at_vir_addr mem p v x).2 =
      [Output.store_line p v (get_physical_address mem p v) x] ∧
    (∃ i : Nat, i < n ∧ get_physical_address mem p v =
      ((mem ((get_page_table mem p * 256 + i : Nat) : Int) * 256 + v % 256 : Nat) : Int)) ∧
    (store_value_at_vir_addr mem p v x).1 (get_physical_address mem p v) = (x % 256).toNat ∧
    (∀ y : Int, y ≠ get_physical_address mem p v →
      (store_value_at_vir_addr mem p v x).1 y = mem y) ∧
    (∀ i : Nat, i < 64 → (store_value_at_vir_addr mem p v x).1 (i : Int) = mem (i : Int)) ∧
    (∀ q : Nat, q < 64 →
      (store_value_at_vir_addr mem p v x).1 ((64 + q : Nat) : Int) = mem ((64 + q : Nat) : Int)) ∧
    (∀ e ∈ L, ∀ i : Nat, i < 256 →
      (store_value_at_vir_addr mem p v x).1 ((get_page_table mem e.1 * 256 + i : Nat) : Int) =
        mem ((get_page_table mem e.1 * 256 + i : Nat) : Int)) ∧
    (∀ e ∈ L, e.1 ≠ p → ∀ i j : Nat, i < e.2 → j < 256 →
      (store_value_at_vir_addr mem p v x).1
          ((mem ((get_page_table mem e.1 * 256 + i : Nat) : Int) * 256 + j : Nat) : Int) =
        mem ((mem ((get_page_table mem e.1 * 256 + i : Nat) : Int) * 256 + j : Nat) : Int)) := by
  have hl := createdStored_layout mem L h
  have ha := gpa_mapped mem L hl (p, n) hp v hv
  have hb := table_of_bounds L hl.distinct (p, n) hp
  simp only at ha hb
  have hr := hl.room
  have hst := store_ok_eq mem p v x _ ha (by omega)
  have hframe : ∀ y : Int, y ≠ get_physical_address mem p v →
      (store_value_at_vir_addr mem p v x).1 y = mem y := fun y hy => by
    rw [hst]
    exact write_other _ _ _ _ (ha ▸ hy)
  have htab : ∀ e ∈ L, get_page_table mem e.1 = table_of L e.1 := fun e he => by
    rw [get_page_table_eq]; exact hl.dir e he
  refine ⟨by rw [hst, ha], ⟨v / 256, by omega, ?_⟩, ?_, hframe, ?_, ?_, ?_, ?_⟩
  · rw [htab (p, n) hp, hl.table_lo (p, n) hp (v / 256) (by simp only; omega), ha]
  · rw [hst, ha]; exact write_same _ _ _
  · intro i hi
    exact hframe _ (by rw [ha]; push_cast; omega)
  · intro q hq
    exact hframe _ (by rw [ha]; push_cast; omega)
  · intro e he i hi
    rw [htab e he]
    have h1 := table_of_bounds L hl.distinct e he
    apply hframe
    rw [ha]
    by_cases hep : e.1 = p
    · rw [hep]; push_cast; omega
    · have := table_of_disjoint L hl.distinct e (p, n) he hp hep
      simp only at this
      push_cast; omega
  · intro e he hep i j hi hj
    rw [htab e he, hl.table_lo e he i hi]
    have h1 := table_of_bounds L hl.distinct e he
    have := table_of_disjoint L hl.distinct e (p, n) he hp hep
    simp only at this
    apply hframe
    rw [ha]
    push_cast; omega

theorem store_frame_witness :
    (store_value_at_vir_addr (new_process (initialize_mem (fun _ => 0)) 0 2).1 0 300 42).2 =
      [Output.store_line 0 300 812 42] ∧
    (store_value_at_vir_addr (new_process (initialize_mem (fun _ => 0)) 0 2).1 0 300 42).1 812
      = 42 ∧
    (store_value_at_vir_addr (new_process (initialize_mem (fun _ => 0)) 0 2).1 0 300 42).1 256
      = (new_process (initialize_mem (fun _ => 0)) 0 2).1 256 := by
  have H := store_frame (new_process (initialize_mem (fun _ => 0)) 0 2).1 [(0, 2)] 0 2 300 42
    (CreatedStored.create _ [] 0 2 (CreatedStored.init _) (by decide) (by simp) (by decide))
    (by simp) (by decide)
  exact ⟨H.1, H.2.2.1, H.2.2.2.1 256 (by decide)⟩

/-- C17: for `page` in [0,64) and `offset` in [0,256), `get_address(page, offset)`
is `page*256 + offset`, lies in [0,16384), gives back `page` by `>> 8` and
`offset` by `& 255`, and so is injective on that domain. -/
theorem get_address_arith (page offset : Nat) (hpage : page < 64) (hoffset : offset < 256) :
    get_address page offset = page * 256 + offset ∧
    get_address page offset < 16384 ∧
    get_address page offset >>> 8 = page ∧
    get_address page offset &&& 255 = offset ∧
    ∀ page2 offset2 : Nat, page2 < 64 → offset2 < 256 →
      get_address page offset = get_address page2 offset2 → page = page2 ∧ offset = offset2 := by
  have h := get_address_eq page offset hoffset
  refine ⟨h, by omega, ?_, ?_, fun page2 offset2 _ h2 he => ?_⟩
  · rw [h, Nat.shiftRight_eq_div_pow]; omega
  · rw [h]
    have := Nat.and_pow_two_sub_one_eq_mod (page * 256 + offset) 8
    simp only [Nat.reducePow, Nat.add_one_sub_one] at this
    rw [this]; omega
  · rw [h, get_address_eq page2 offset2 h2] at he
    omega

theorem get_address_arith_witness :
    get_address 3 17 = 3 * 256 + 17 ∧ get_address 3 17 < 16384 ∧
    get_address 3 17 >>> 8 = 3 ∧ get_address 3 17 &&& 255 = 17 :=
  ⟨(get_address_arith 3 17 (by decide) (by decide)).1,
    (get_address_arith 3 17 (by decide) (by decide)).2.1,
    (get_address_arith 3 17 (by decide) (by decide)).2.2.1,
    (get_address_arith 3 17 (by decide) (by decide)).2.2.2.1⟩

/-- C18, the code at a failing input: after `initialize_mem`, `new_process(0, 1)`,
`new_process(1, 1)` and `store_value_at_vir_addr(0, 0, 42)`, process 0 loads 42
from virtual address 0, at address 512 in its data page 2, whose bitmap entry is
1.  After `free_process(1)` the bitmap entry of page 2 is 0, byte 512 is 0, and
process 0 loads 0 from virtual address 0. -/
theorem free_process_disturbs_other_process (mem0 : Mem) :
    get_value_at_vir_addr (store_value_at_vir_addr
      (new_process (new_process (initialize_mem mem0) 0 1).1 1 1).1 0 0 42).1 0 0 =
      [Output.load_line 0 0 512 42] ∧
    (store_value_at_vir_addr
      (new_process (new_process (initialize_mem mem0) 0 1).1 1 1).1 0 0 42).1 2 = 1 ∧
    free_process (store_value_at_vir_addr
      (new_process (new_process (initialize_mem mem0) 0 1).1 1 1).1 0 0 42).1 1 2 = 0 ∧
    free_process (store_value_at_vir_addr
      (new_process (new_process (initialize_mem mem0) 0 1).1 1 1).1 0 0 42).1 1 512 = 0 ∧
    get_value_at_vir_addr (free_process (store_value_at_vir_addr
      (new_process (new_process (initialize_mem mem0) 0 1).1 1 1).1 0 0 42).1 1) 0 0 =
      [Output.load_line 0 0 512 0] := by
  have hc : Created (new_process (new_process (initialize_mem mem0) 0 1).1 1 1).1
      [(1, 1), (0, 1)] :=
    created_of_room _ _ 1 1 (created_of_room _ _ 0 1 (Created.init mem0) (by decide) (by simp)
      (by decide)) (by decide) (by simp) (by decide)
  have hl := created_layout _ _ hc
  have ha : get_physical_address
      (new_process (new_process (initialize_mem mem0) 0 1).1 1 1).1 0 0 = 512 :=
    gpa_mapped _ _ hl (0, 1) (by simp) 0 (by decide)
  have hst := store_ok_eq _ 0 0 42 512 ha (by decide)
  have hl2 := layout_store _ _ 0 1 0 42 hl (by simp) (by decide)
  have ha2 : get_physical_address (store_value_at_vir_addr
      (new_process (new_process (initialize_mem mem0) 0 1).1 1 1).1 0 0 42).1 0 0 = 512 :=
    gpa_mapped _ _ hl2 (0, 1) (by simp) 0 (by decide)
  have h512 : (store_value_at_vir_addr
      (new_process (new_process (initialize_mem mem0) 0 1).1 1 1).1 0 0 42).1 512 = 42 := by
    rw [hst]
    exact write_same (new_process (new_process (initialize_mem mem0) 0 1).1 1 1).1 512 42
  have hfp := free_process_layout _ _ hl2 (1, 1) (0, 1) (by simp) (by simp) (by decide)
  have hf512 : free_process (store_value_at_vir_addr
      (new_process (new_process (initialize_mem mem0) 0 1).1 1 1).1 0 0 42).1 1 512 = 0 := by
    rw [hfp 512, if_neg (by decide), if_pos (by decide)]
  have hf64 : free_process (store_value_at_vir_addr
      (new_process (new_process (initialize_mem mem0) 0 1).1 1 1).1 0 0 42).1 1
      ((64 + 0 : Nat) : Int) = 1 := by
    rw [hfp _, if_neg (by decide), if_neg (by decide)]
    exact hl2.dir (0, 1) (by simp)
  have hf256 : free_process (store_value_at_vir_addr
      (new_process (new_process (initialize_mem mem0) 0 1).1 1 1).1 0 0 42).1 1
      ((1 * 256 + 0 / 256 : Nat) : Int) = 2 := by
    rw [hfp _, if_neg (by decide), if_neg (by decide)]
    exact hl2.table_lo (0, 1) (by simp) 0 (by decide)
  have ha3 : get_physical_address (free_process (store_value_at_vir_addr
      (new_process (new_process (initialize_mem mem0) 0 1).1 1 1).1 0 0 42).1 1) 0 0 = 512 :=
    gpa_of_entries _ 0 0 1 2 (by decide) hf64 hf256
  refine ⟨?_, hl2.bitmap_used 2 (by decide), ?_, hf512, ?_⟩
  · rw [load_ok_eq _ 0 0 512 ha2 (by decide), h512]
    rfl
  · rw [hfp 2, if_neg (by decide), if_pos (by decide)]
  · rw [load_ok_eq _ 0 0 512 ha3 (by decide), hf512]
    rfl

/-- C19: `new_process` does not disturb existing processes.  For every memory
state and `p` in [0,64): a cell whose value `new_process(p, n)` changes is a
bitmap slot in 1..63 that was 0 and becomes 1, or the directory byte `mem[64+p]`,
or a byte at an offset below `n` of the page named by the new directory entry,
which was a free page.  Hence for every `q ≠ p` in [0,64) that has a table page
`t = mem[64+q]`, `t ≠ 0`, marked in the bitmap, and whose mapped data pages are
marked in the bitmap, and every `v < 65536`: `get_physical_address(q, v)` and the
byte at that address are the same before and after the call. -/
theorem new_process_frame (mem : Mem) (p n : Nat) (hp : p < 64) :
    (∀ x : Int, (new_process mem p n).1 x ≠ mem x →
      (1 ≤ x ∧ x ≤ 63 ∧ mem x = 0 ∧ (new_process mem p n).1 x = 1) ∨
      x = ((64 + p : Nat) : Int) ∨
      ∃ i : Nat, i < n ∧
        x = (((new_process mem p n).1 ((64 + p : Nat) : Int) * 256 + i : Nat) : Int)) ∧
    (∀ q v t : Nat, q < 64 → q ≠ p → v < 65536 → t = mem ((64 + q : Nat) : Int) → t ≠ 0 →
      mem (t : Int) ≠ 0 →
      (∀ i : Nat, i < 256 → mem ((t * 256 + i : Nat) : Int) ≠ 0 →
        mem (mem ((t * 256 + i : Nat) : Int) : Int) ≠ 0) →
      get_physical_address (new_process mem p n).1 q v = get_physical_address mem q v ∧
      (new_process mem p n).1 (get_physical_address (new_process mem p n).1 q v) =
        mem (get_physical_address mem q v)) := by
  constructor
  · intro x hne
    rcases new_process_effect mem p n hp x with h | h | h | ⟨i, h1, -, h2, -⟩
    · exact absurd h hne
    · exact Or.inl h
    · exact Or.inr (Or.inl h.1)
    · exact Or.inr (Or.inr ⟨i, h1, h2⟩)
  · intro q v t hq hqp hv ht ht0 htm hdata
    have hdir : (new_process mem p n).1 ((64 + q : Nat) : Int) = mem ((64 + q : Nat) : Int) := by
      rcases new_process_effect mem p n hp ((64 + q : Nat) : Int) with h | h | h | ⟨i, h⟩
      · exact h
      · omega
      · omega
      · omega
    have hent : (new_process mem p n).1 ((t * 256 + v / 256 : Nat) : Int) =
        mem ((t * 256 + v / 256 : Nat) : Int) := by
      rcases new_process_effect mem p n hp ((t * 256 + v / 256 : Nat) : Int) with
        h | h | h | ⟨i, h1, h2, h3, h4, h5, h6, h7, h8⟩
      · exact h
      · omega
      · omega
      · exfalso
        have : t = (new_process mem p n).1 ((64 + p : Nat) : Int) := by omega
        rw [← this] at h8
        exact htm h8
    have heq : get_physical_address (new_process mem p n).1 q v = get_physical_address mem q v := by
      rw [get_physical_address_eq _ q v hv, get_physical_address_eq mem q v hv, hdir, ← ht, hent]
    refine ⟨heq, ?_⟩
    rw [heq, get_physical_address_eq mem q v hv, ← ht]
    have hd := hdata (v / 256) (by omega)
    generalize mem ((t * 256 + v / 256 : Nat) : Int) = e at hd ⊢
    by_cases he : e = 0
    · rw [if_pos he]
      rcases new_process_effect mem p n hp (-1) with h | h | h | ⟨i, h⟩
      · exact h
      · omega
      · omega
      · omega
    · rw [if_neg he]
      rcases new_process_effect mem p n hp ((e * 256 + v % 256 : Nat) : Int) with
        h | h | h | ⟨i, h1, h2, h3, h4, h5, h6, h7, h8⟩
      · exact h
      · omega
      · omega
      · exfalso
        have : e = (new_process mem p n).1 ((64 + p : Nat) : Int) := by omega
        rw [← this] at h8
        exact hd he h8

theorem new_process_frame_witness :
    get_physical_address
        (new_process (new_process (initialize_mem (fun _ => 0)) 0 2).1 1 1).1 0 0 =
      get_physical_address (new_process (initialize_mem (fun _ => 0)) 0 2).1 0 0 ∧
    (new_process (new_process (initialize_mem (fun _ => 0)) 0 2).1 1 1).1
        (get_physical_address
          (new_process (new_process (initialize_mem (fun _ => 0)) 0 2).1 1 1).1 0 0) =
      (new_process (initialize_mem (fun _ => 0)) 0 2).1
        (get_physical_address (new_process (initialize_mem (fun _ => 0)) 0 2).1 0 0) := by
  have hc : Created (new_process (initialize_mem (fun _ => 0)) 0 2).1 [(0, 2)] :=
    created_of_room _ _ 0 2 (Created.init _) (by decide) (by simp) (by decide)
  have hl := created_layout _ _ hc
  exact (new_process_frame (new_process (initialize_mem (fun _ => 0)) 0 2).1 1 1 (by decide)).2
    0 0 1 (by decide) (by decide) (by decide) (by decide) (by decide) (by decide)
    (fun i hi hne => by
      by_cases h2 : i < 2
      · have h1 : (new_process (initialize_mem (fun _ => 0)) 0 2).1 ((1 * 256 + i : Nat) : Int)
            = 1 + 1 + i := hl.table_lo (0, 2) (by simp) i h2
        rw [h1, hl.bitmap_used (1 + 1 + i) (by
          have : pages_used [(0, 2)] = 3 := by decide
          omega)]
        decide
      · exact absurd (hl.table_hi (0, 2) (by simp) i (by simpa using h2) hi) hne)

/-- C20: translation stays in bounds.  In every state reached from
`initialize_mem` by `new_process` and `free_process` calls with ids in [0,64),
every byte of the array is less than 64; hence for `p` in [0,64) and `v` in
[0,65536) the two indices `get_physical_address` reads, the directory index and
the table-entry index, are below 16384, and its result is -1 or an address in
[256, 16384). -/
theorem translation_in_bounds (mem : Mem) (h : RunAny mem) :
    (∀ y : Nat, y < 16384 → mem (y : Int) < 64) ∧
    ∀ p v : Nat, p < 64 → v < 65536 →
      get_address 0 (PTP_OFFSET + p) < 16384 ∧
      table_entry_index mem p v < 16384 ∧
      (get_physical_address mem p v = -1 ∨
        (256 ≤ get_physical_address mem p v ∧ get_physical_address mem p v < 16384)) := by
  have hb := runAny_bounded mem h
  refine ⟨hb, fun p v hp hv => ?_⟩
  have h1 := hb (64 + p) (by omega)
  have h3 : v >>> 8 = v / 256 := by rw [Nat.shiftRight_eq_div_pow]
  have h2 := hb (mem ((64 + p : Nat) : Int) * 256 + v / 256) (by omega)
  refine ⟨by rw [get_address_zero]; simp only [PTP_OFFSET]; omega, ?_, ?_⟩
  · unfold table_entry_index
    rw [get_page_table_eq, h3, get_address_eq _ _ (by omega)]
    omega
  · rw [get_physical_address_eq mem p v hv]
    generalize mem ((mem ((64 + p : Nat) : Int) * 256 + v / 256 : Nat) : Int) = e at h2 ⊢
    split_ifs with he
    · exact Or.inl rfl
    · right
      push_cast
      omega

theorem translation_in_bounds_witness :
    table_entry_index (free_process (new_process (initialize_mem (fun _ => 0)) 0 2).1 5) 0 300
      < 16384 ∧
    (get_physical_address (free_process (new_process (initialize_mem (fun _ => 0)) 0 2).1 5) 0 300
        = -1 ∨
      (256 ≤ get_physical_address
          (free_process (new_process (initialize_mem (fun _ => 0)) 0 2).1 5) 0 300 ∧
        get_physical_address
          (free_process (new_process (initialize_mem (fun _ => 0)) 0 2).1 5) 0 300 < 16384)) :=
  ((translation_in_bounds _
    (RunAny.free _ 5 (RunAny.create _ 0 2 (RunAny.init (fun _ => 0)) (by decide)) (by decide))).2
    0 300 (by decide) (by decide)).2

end Ptsim
